import Mathlib

/-
Verification of the AGV dispatch-and-simulation engine (backend/).

Shallow embedding of the core engine:
  * backend/models.py  : domain records (Robot, Order, Route, Event, Graph) and the
    seeded global GRAPH / SEED_ROBOTS / SEED_ORDERS state;
  * backend/helpers.py : shortest_path (uniform-cost search with a heap of
    (distance, node, path) triples) and assign_nearest_idle_robot;
  * backend/main.py    : the /events query, /addOrder, and the /tick engine.

Numeric conventions.  All edge weights in the seeded GRAPH are the small integers
1,2,2,3,1,2, on which Python float arithmetic is exact, so weights and distances
are modelled as Nat.  Route.remaining_weight is modelled as Int so that its
non-negativity is a property of the code, not of the type.  Python's int
arithmetic on indices (`next_index < len(path) - 1`, `next_index == len(path) - 1`)
is rendered with `+ 1` moved to the left-hand side, which is equivalent over the
integers and avoids truncated Nat subtraction.
-/

namespace AGV

/-- models.Edge: an edge record with endpoints and a weight. -/
structure Edge where
  from_ : String
  to_ : String
  weight : Nat
deriving DecidableEq, Repr

/-- models.Graph: a node list and an edge list. -/
structure Graph where
  nodes : List String
  edges : List Edge
deriving DecidableEq, Repr

/-- models.GRAPH: the seeded global graph. -/
def GRAPH : Graph :=
  { nodes := ["A", "B", "C", "D", "E", "F"]
    edges :=
      [ ⟨"A", "B", 1⟩, ⟨"B", "C", 2⟩, ⟨"C", "D", 2⟩,
        ⟨"B", "E", 3⟩, ⟨"E", "F", 1⟩, ⟨"D", "F", 2⟩ ] }

/-- The adjacency list of helpers.shortest_path: scanning GRAPH.edges in order,
each edge contributes `(to, weight)` to its `from_` node's list and
`(from_, weight)` to its `to` node's list (bidirectional). -/
def neighbors (u : String) : List (String × Nat) :=
  GRAPH.edges.foldl
    (fun acc e =>
      let acc1 := if e.from_ == u then acc ++ [(e.to_, e.weight)] else acc
      if e.to_ == u then acc1 ++ [(e.from_, e.weight)] else acc1)
    []

/-- A heap entry of helpers.shortest_path: (distance, current_node, path). -/
abbrev HeapEntry := Nat × String × List String

/-- Python's `<` on single characters (by code point). -/
def charListLt : List Char → List Char → Bool
  | [], [] => false
  | [], _ :: _ => true
  | _ :: _, [] => false
  | a :: as, b :: bs => if a < b then true else if b < a then false else charListLt as bs

/-- Python's `<` on strings: lexicographic by code point, a strict prefix is
smaller.  (`strLt_iff` below identifies it with the standard order on String.) -/
def strLt (a b : String) : Bool := charListLt a.toList b.toList

/-- Python's `<` on lists of strings: lexicographic, a strict prefix is smaller. -/
def listLtStr : List String → List String → Bool
  | [], [] => false
  | [], _ :: _ => true
  | _ :: _, [] => false
  | a :: as, b :: bs => if strLt a b then true else if strLt b a then false else listLtStr as bs

lemma charListLt_iff : ∀ as bs : List Char, charListLt as bs = true ↔ as < bs := by
  intro as
  induction as with
  | nil =>
    intro bs
    cases bs with
    | nil => simp [charListLt]
    | cons b bs => simp [charListLt]; exact List.Lex.nil
  | cons a as ih =>
    intro bs
    cases bs with
    | nil => simp [charListLt]
    | cons b bs =>
      unfold charListLt
      by_cases hab : a < b
      · simp [hab]; exact List.Lex.rel hab
      · by_cases hba : b < a
        · simp [hab, hba]
          exact le_of_lt (List.Lex.rel hba)
        · have hEq : a = b := le_antisymm (not_lt.mp hba) (not_lt.mp hab)
          subst hEq
          simp [hab, hba, ih bs]
          constructor
          · intro h; exact List.Lex.cons h
          · intro h
            cases h with
            | rel h1 => exact absurd h1 hab
            | cons h3 => exact h3

lemma strLt_iff (a b : String) : strLt a b = true ↔ a < b := by
  rw [String.lt_iff_toList_lt, strLt, charListLt_iff]

/-- Python's `<` on (distance, node, path) tuples: lexicographic on the components. -/
def entryLt (x y : HeapEntry) : Bool :=
  if x.1 < y.1 then true
  else if y.1 < x.1 then false
  else if strLt x.2.1 y.2.1 then true
  else if strLt y.2.1 x.2.1 then false
  else listLtStr x.2.2 y.2.2

/-- heapq.heappop: remove a minimal entry (the first occurrence of the minimum
under the tuple order) from the heap, modelled as a list. -/
def popMin : List HeapEntry → Option (HeapEntry × List HeapEntry)
  | [] => none
  | e :: es =>
    match popMin es with
    | none => some (e, [])
    | some (m, rest) => if entryLt m e then some (m, e :: rest) else some (e, es)

/-- The two ValueError cases of helpers.shortest_path. -/
inductive PathError where
  | invalidNode
  | noPathFound
deriving DecidableEq, Repr

/-- The `while heap:` loop of helpers.shortest_path.  `fuel` bounds the number of
iterations (the concrete graph needs at most 13 heap insertions); `none` means
the fuel ran out, which the concrete evaluations below show never happens. -/
def dijkstraLoop (goal : String) : Nat → List HeapEntry → List (String × Nat) →
    Option (Except PathError (Nat × List String))
  | 0, heap, _ => if heap.isEmpty then some (.error .noPathFound) else none
  | fuel + 1, heap, visited =>
    match popMin heap with
    | none => some (.error .noPathFound)
    | some ((d, node, path), rest) =>
      if visited.any (fun q => q.1 == node) then
        dijkstraLoop goal fuel rest visited
      else
        let visited1 := visited ++ [(node, d)]
        if node == goal then some (.ok (d, path))
        else
          let pushes := (neighbors node).filter (fun q => !(visited1.any (fun v => v.1 == q.1)))
          dijkstraLoop goal fuel
            (rest ++ pushes.map (fun q => (d + q.2, q.1, path ++ [q.1]))) visited1

/-- helpers.shortest_path: validate the endpoints, then run uniform-cost search
from `[(0, start, [start])]`. -/
def shortest_path (start goal : String) : Option (Except PathError (Nat × List String)) :=
  if start ∈ GRAPH.nodes ∧ goal ∈ GRAPH.nodes then
    dijkstraLoop goal 64 [(0, start, [start])] []
  else some (.error .invalidNode)

/-- shortest_path never runs out of fuel on the seeded GRAPH (checked for all
node pairs; invalid endpoints are rejected before the search). -/
def spFuelOk : Bool :=
  GRAPH.nodes.all (fun a => GRAPH.nodes.all (fun b => (shortest_path a b).isSome))

/-- Total version of shortest_path; `shortest_path_eq` below shows it agrees with
`shortest_path` everywhere, so the fuel is invisible to callers. -/
def spTotal (start goal : String) : Except PathError (Nat × List String) :=
  (shortest_path start goal).getD (.error .noPathFound)

lemma spFuelOk_true : spFuelOk = true := by decide

lemma shortest_path_isSome (a b : String) : (shortest_path a b).isSome := by
  by_cases hmem : a ∈ GRAPH.nodes ∧ b ∈ GRAPH.nodes
  · have hall := spFuelOk_true
    unfold spFuelOk at hall
    have h1 := (List.all_eq_true.mp hall) a hmem.1
    exact (List.all_eq_true.mp h1) b hmem.2
  · unfold shortest_path
    rw [if_neg hmem]
    rfl

lemma shortest_path_eq (a b : String) : shortest_path a b = some (spTotal a b) := by
  cases h : shortest_path a b with
  | none => exact absurd (h ▸ shortest_path_isSome a b) (by simp)
  | some v => unfold spTotal; rw [h]; rfl

/-- Look up the first GRAPH edge joining `u` and `v`, in either direction (the
`next((e for e in GRAPH.edges if ...), None)` search used by main.tick, and the
edge test behind path validity). -/
def edgeFind (u v : String) : Option Edge :=
  GRAPH.edges.find? (fun e => (e.from_ == u && e.to_ == v) || (e.from_ == v && e.to_ == u))

/-- Some GRAPH edge joins `u` and `v`. -/
def hasEdge (u v : String) : Bool := (edgeFind u v).isSome

/-- Weight of the edge joining `u` and `v`, with the defensive default of 1
when no edge matches (`edge.weight if edge else 1` in main.tick).  On paths
where every consecutive pair is an actual edge the default never fires. -/
def effWeight (u v : String) : Nat :=
  match edgeFind u v with
  | some e => e.weight
  | none => 1

/-- Every pair of consecutive nodes is joined by a graph edge. -/
def chainOk : List String → Bool
  | u :: v :: rest => hasEdge u v && chainOk (v :: rest)
  | _ => true

/-- Total edge weight of a node sequence. -/
def pathCost : List String → Nat
  | u :: v :: rest => effWeight u v + pathCost (v :: rest)
  | _ => 0

/-- The cost shortest_path reports (0 on error; only used at ok results). -/
def distOf (a b : String) : Nat :=
  match spTotal a b with
  | .ok (d, _) => d
  | .error _ => 0

/-- Some chainOk node sequence leads from `a` to `b` (graph reachability). -/
def ReachableG (a b : String) : Prop :=
  ∃ q : List String, q.head? = some a ∧ q.getLast? = some b ∧ chainOk q = true

/-- The distance table reported from `a` satisfies the triangle inequality over
every edge, in both directions: a certificate that no path can undercut it. -/
def triangleOk (a : String) : Bool :=
  GRAPH.edges.all (fun e =>
    decide (distOf a e.to_ ≤ distOf a e.from_ + effWeight e.from_ e.to_) &&
    decide (distOf a e.from_ ≤ distOf a e.to_ + effWeight e.to_ e.from_))

/-- Decidable per-pair check of the C1 properties of the reported result. -/
def pairOk (a b : String) : Bool :=
  match spTotal a b with
  | .error _ => false
  | .ok (c, p) =>
    p.head? == some a && p.getLast? == some b && chainOk p &&
    decide (pathCost p = c) &&
    (List.range (p.length + 1)).all (fun k => decide (pathCost (p.take k) ≤ c)) &&
    (a != b || (decide (c = 0) && p == [a])) &&
    decide (c = distOf a b)

def C1allOk : Bool :=
  GRAPH.nodes.all (fun a =>
    triangleOk a && decide (distOf a a = 0) && GRAPH.nodes.all (fun b => pairOk a b))

lemma C1allOk_true : C1allOk = true := by decide

/-- A distance table satisfying the per-edge triangle inequality lower-bounds
the cost of every chainOk node sequence. -/
lemma pathCost_lower (d : String → Nat)
    (hd : ∀ u v, hasEdge u v = true → d v ≤ d u + effWeight u v) :
    ∀ (p : List String) (u v : String), p.head? = some u → p.getLast? = some v →
      chainOk p = true → d v ≤ d u + pathCost p := by
  intro p
  induction p with
  | nil => intro u v h; simp at h
  | cons x tail ih =>
    intro u v hh hl hc
    have hxu : x = u := by simpa using hh
    subst hxu
    cases tail with
    | nil =>
      have hv : x = v := by simpa using hl
      subst hv
      simp [pathCost]
    | cons w rest =>
      simp only [chainOk, Bool.and_eq_true] at hc
      rw [List.getLast?_cons_cons] at hl
      have hih := ih w v rfl hl hc.2
      have hdw := hd x w hc.1
      have hpc : pathCost (x :: w :: rest) = effWeight x w + pathCost (w :: rest) := rfl
      omega

/-- The triangleOk certificate, unpacked to arbitrary endpoint pairs. -/
lemma triangle_sound (a : String) (h : triangleOk a = true) :
    ∀ u v, hasEdge u v = true → distOf a v ≤ distOf a u + effWeight u v := by
  intro u v huv
  unfold hasEdge at huv
  cases hfind : edgeFind u v with
  | none => rw [hfind] at huv; simp at huv
  | some e =>
    have hfind2 : GRAPH.edges.find?
        (fun e => (e.from_ == u && e.to_ == v) || (e.from_ == v && e.to_ == u)) = some e := hfind
    have hmem : e ∈ GRAPH.edges := List.mem_of_find?_eq_some hfind2
    have hp := List.find?_some hfind2
    simp only [Bool.or_eq_true, Bool.and_eq_true, beq_iff_eq] at hp
    have htri := (List.all_eq_true.mp h) e hmem
    rw [Bool.and_eq_true, decide_eq_true_eq, decide_eq_true_eq] at htri
    cases hp with
    | inl hfw =>
      rw [hfw.1, hfw.2] at htri
      exact htri.1
    | inr hbw =>
      rw [hbw.1, hbw.2] at htri
      exact htri.2

/-- Soundness of the decidable all-pairs check: the full C1 property, with
minimality over all chainOk paths obtained from the triangle certificate. -/
lemma C1core :
    ∀ a ∈ GRAPH.nodes, ∀ b ∈ GRAPH.nodes,
      ∃ c p, spTotal a b = .ok (c, p) ∧
        p.head? = some a ∧ p.getLast? = some b ∧ chainOk p = true ∧
        pathCost p = c ∧ (∀ k, pathCost (p.take k) ≤ c) ∧
        (∀ q, q.head? = some a → q.getLast? = some b → chainOk q = true →
          c ≤ pathCost q) ∧
        (a = b → c = 0 ∧ p = [a]) := by
  intro a ha b hb
  have hall := C1allOk_true
  unfold C1allOk at hall
  have h1 := (List.all_eq_true.mp hall) a ha
  rw [Bool.and_eq_true, Bool.and_eq_true] at h1
  obtain ⟨⟨htri, hdist0⟩, hpairs⟩ := h1
  rw [decide_eq_true_eq] at hdist0
  have hpair := (List.all_eq_true.mp hpairs) b hb
  unfold pairOk at hpair
  cases hsp : spTotal a b with
  | error e => rw [hsp] at hpair; simp at hpair
  | ok v =>
    obtain ⟨c, p⟩ := v
    rw [hsp] at hpair
    simp only [Bool.and_eq_true, Bool.or_eq_true, beq_iff_eq, bne_iff_ne,
      decide_eq_true_eq, ne_eq, List.all_eq_true, List.mem_range] at hpair
    obtain ⟨⟨⟨⟨⟨⟨hhd, hlast⟩, hchain⟩, hcost⟩, hpre⟩, hdiag⟩, hcd⟩ := hpair
    refine ⟨c, p, rfl, hhd, hlast, hchain, hcost, ?_, ?_, ?_⟩
    · intro k
      by_cases hk : k ≤ p.length
      · exact hpre k (Nat.lt_succ_of_le hk)
      · rw [List.take_of_length_le (Nat.le_of_not_le hk)]
        omega
    · intro q hq1 hq2 hq3
      have hlow := pathCost_lower (distOf a) (triangle_sound a htri) q a b hq1 hq2 hq3
      omega
    · intro hab
      cases hdiag with
      | inl hne => exact absurd hab hne
      | inr hz => exact ⟨hz.1, hz.2⟩

/-- C1: for every pair of graph nodes (s, g) with g reachable from s,
shortest_path s g returns a cost c and a node sequence p that starts at s, ends
at g, follows graph edges, has edge weights summing exactly to c with partial
sums never exceeding c, and c is minimal over all s-to-g edge paths; for
s = g the result is cost 0 with the single-node path [s]. -/
theorem C1_shortest_path_correct :
    ∀ a ∈ GRAPH.nodes, ∀ b ∈ GRAPH.nodes, ReachableG a b →
      ∃ c p, shortest_path a b = some (.ok (c, p)) ∧
        p.head? = some a ∧ p.getLast? = some b ∧ chainOk p = true ∧
        pathCost p = c ∧ (∀ k, pathCost (p.take k) ≤ c) ∧
        (∀ q, q.head? = some a → q.getLast? = some b → chainOk q = true →
          c ≤ pathCost q) ∧
        (a = b → c = 0 ∧ p = [a]) := by
  intro a ha b hb _
  obtain ⟨c, p, hsp, hrest⟩ := C1core a ha b hb
  refine ⟨c, p, ?_, hrest⟩
  rw [shortest_path_eq, hsp]

/-- Witness for C1 at the pair ("A", "D"), with every hypothesis discharged on
the concrete graph. -/
theorem C1_shortest_path_correct_witness :
    ∃ c p, shortest_path "A" "D" = some (.ok (c, p)) ∧
      p.head? = some "A" ∧ p.getLast? = some "D" ∧ chainOk p = true ∧
      pathCost p = c ∧ (∀ k, pathCost (p.take k) ≤ c) ∧
      (∀ q, q.head? = some "A" → q.getLast? = some "D" → chainOk q = true →
        c ≤ pathCost q) ∧
      ("A" = "D" → c = 0 ∧ p = ["A"]) :=
  C1_shortest_path_correct "A" (by decide) "D" (by decide)
    ⟨["A", "B", "C", "D"], by decide, by decide, by decide⟩

/-- C9: shortest_path fails with the invalid-node ValueError iff an endpoint is
not a graph node; it fails with the no-path ValueError iff both endpoints are
valid and the goal is unreachable (never, on the seeded connected graph); in
all other cases it returns a result. -/
theorem C9_shortest_path_errors :
    ∀ a b : String,
      (shortest_path a b = some (.error .invalidNode) ↔
        a ∉ GRAPH.nodes ∨ b ∉ GRAPH.nodes) ∧
      (shortest_path a b = some (.error .noPathFound) ↔
        a ∈ GRAPH.nodes ∧ b ∈ GRAPH.nodes ∧ ¬ ReachableG a b) ∧
      (a ∈ GRAPH.nodes → b ∈ GRAPH.nodes →
        ∃ c p, shortest_path a b = some (.ok (c, p))) := by
  intro a b
  by_cases hmem : a ∈ GRAPH.nodes ∧ b ∈ GRAPH.nodes
  · obtain ⟨c, p, hsp, hh, hl, hc, _⟩ := C1core a hmem.1 b hmem.2
    have hspa : shortest_path a b = some (.ok (c, p)) := by
      rw [shortest_path_eq, hsp]
    refine ⟨⟨?_, ?_⟩, ⟨?_, ?_⟩, fun _ _ => ⟨c, p, hspa⟩⟩
    · intro h; rw [hspa] at h; simp at h
    · intro h
      cases h with
      | inl h => exact absurd hmem.1 h
      | inr h => exact absurd hmem.2 h
    · intro h; rw [hspa] at h; simp at h
    · rintro ⟨-, -, hnr⟩; exact absurd ⟨p, hh, hl, hc⟩ hnr
  · have hspa : shortest_path a b = some (.error .invalidNode) := by
      unfold shortest_path; rw [if_neg hmem]
    refine ⟨⟨fun _ => not_and_or.mp hmem, fun _ => hspa⟩, ⟨?_, ?_⟩, ?_⟩
    · intro h; rw [hspa] at h; simp at h
    · rintro ⟨h1, h2, -⟩; exact absurd ⟨h1, h2⟩ hmem
    · intro h1 h2; exact absurd ⟨h1, h2⟩ hmem

/-- Witness for C9: an invalid endpoint is rejected with the invalid-node
error, and a valid pair returns a result. -/
theorem C9_shortest_path_errors_witness :
    shortest_path "Z" "A" = some (.error .invalidNode) ∧
    (∃ c p, shortest_path "E" "D" = some (.ok (c, p))) :=
  ⟨(C9_shortest_path_errors "Z" "A").1.mpr (Or.inl (by decide)),
   (C9_shortest_path_errors "E" "D").2.2 (by decide) (by decide)⟩

/-- A value in an event's detail dict (strings and numbers occur in the code). -/
inductive Val where
  | str (s : String)
  | int (n : Int)
deriving DecidableEq, Repr

/-- models.Event: ISO timestamp string, type tag, detail mapping. -/
structure Event where
  time : String
  type : String
  detail : List (String × Val)
deriving DecidableEq, Repr

/-- How a main.get_events call can fail: the HTTP 400 for an unparseable
`since`, or the uncaught ValueError from parsing a stored event time. -/
inductive QueryError where
  | invalidSince
  | badEventTime
deriving DecidableEq, Repr

/-- The `for e in events` filter of main.get_events keeping events strictly
after `t`.  `parse` stands for `datetime.fromisoformat` applied after the
`"Z" → "+00:00"` replacement; a `none` parse of a stored event time is the
ValueError Python would raise there. -/
def filterSince (parse : String → Option Int) (t : Int) : List Event → Option (List Event)
  | [] => some []
  | e :: es =>
    match parse e.time with
    | none => none
    | some te =>
      match filterSince parse t es with
      | none => none
      | some rest => some (if t < te then e :: rest else rest)

/-- Python's `events[-limit:]` slice, for an arbitrary int `limit`:
the last `limit` elements when positive, the whole list when 0
(`-0 == 0`), and a drop from the front when negative. -/
def sliceLast (l : List Event) (k : Int) : List Event :=
  if 0 < k then l.drop (l.length - k.toNat)
  else if k = 0 then l
  else l.drop (-k).toNat

def applyLimit : Option Int → List Event → List Event
  | none, l => l
  | some k, l => sliceLast l k

/-- main.get_events: optional strictly-after filter on `since` (rejecting an
unparseable value), optional `events[-limit:]` slice, then `[::-1]` reversal
to most-recent-first order. -/
def get_events (parse : String → Option Int) (events : List Event)
    (limit : Option Int) : Option String → Except QueryError (List Event)
  | none => .ok ((applyLimit limit events).reverse)
  | some str =>
    match parse str with
    | none => .error .invalidSince
    | some t =>
      match filterSince parse t events with
      | none => .error .badEventTime
      | some evs => .ok ((applyLimit limit evs).reverse)

lemma filterSince_mem (parse : String → Option Int) (t : Int) :
    ∀ l r, filterSince parse t l = some r →
      ∀ e ∈ r, ∃ te, parse e.time = some te ∧ t < te := by
  intro l
  induction l with
  | nil => intro r h; cases h; intro e he; simp at he
  | cons x xs ih =>
    intro r h e he
    unfold filterSince at h
    cases hx : parse x.time with
    | none => simp only [hx] at h; cases h
    | some tx =>
      simp only [hx] at h
      cases hrest : filterSince parse t xs with
      | none => simp only [hrest] at h; cases h
      | some rest =>
        simp only [hrest] at h
        by_cases ht : t < tx
        · rw [if_pos ht] at h
          have hr : x :: rest = r := Option.some_inj.mp h
          subst hr
          cases he with
          | head => exact ⟨tx, hx, ht⟩
          | tail _ hmem => exact ih rest hrest e hmem
        · rw [if_neg ht] at h
          have hr : rest = r := Option.some_inj.mp h
          subst hr
          exact ih rest hrest e he

lemma filterSince_sublist (parse : String → Option Int) (t : Int) :
    ∀ l r, filterSince parse t l = some r → r.Sublist l := by
  intro l
  induction l with
  | nil => intro r h; cases h; exact List.Sublist.refl []
  | cons x xs ih =>
    intro r h
    unfold filterSince at h
    cases hx : parse x.time with
    | none => simp only [hx] at h; cases h
    | some tx =>
      simp only [hx] at h
      cases hrest : filterSince parse t xs with
      | none => simp only [hrest] at h; cases h
      | some rest =>
        simp only [hrest] at h
        by_cases ht : t < tx
        · rw [if_pos ht] at h
          have hr : x :: rest = r := Option.some_inj.mp h
          subst hr
          exact List.Sublist.cons₂ x (ih rest hrest)
        · rw [if_neg ht] at h
          have hr : rest = r := Option.some_inj.mp h
          subst hr
          exact List.Sublist.cons x (ih rest hrest)

lemma applyLimit_drop (limit : Option Int) (l : List Event) :
    ∃ n, applyLimit limit l = l.drop n := by
  cases limit with
  | none => exact ⟨0, rfl⟩
  | some k =>
    by_cases h1 : 0 < k
    · exact ⟨l.length - k.toNat, by simp only [applyLimit, sliceLast]; rw [if_pos h1]⟩
    · by_cases h2 : k = 0
      · exact ⟨0, by simp only [applyLimit, sliceLast]; rw [if_neg h1, if_pos h2]; rfl⟩
      · exact ⟨(-k).toNat, by simp only [applyLimit, sliceLast]; rw [if_neg h1, if_neg h2]⟩

lemma applyLimit_length (k : Int) (hk : 0 < k) (l : List Event) :
    (applyLimit (some k) l).length ≤ k.toNat := by
  simp only [applyLimit, sliceLast]
  rw [if_pos hk, List.length_drop]
  omega

/-- C4 counterexample input: a one-event log. -/
def sampleEvent : Event :=
  { time := "2024-01-01T00:00:00Z", type := "tick_processed", detail := [] }

def sampleEvent2 : Event :=
  { time := "2024-01-01T00:00:05Z", type := "order_created", detail := [] }

/-- C4 counterexample: with `limit = 0` the query returns ALL stored events
(Python `events[-0:]` is `events[0:]`, the whole list), not at most 0 of them,
refuting the claim for non-negative limits including 0. -/
theorem C4_limit_zero_counterexample :
    get_events (fun _ => some 0) [sampleEvent] (some 0) none = .ok [sampleEvent] ∧
    ([sampleEvent] : List Event).length = 1 :=
  ⟨rfl, rfl⟩

/-- C4 (amended): an unparseable `since` fails with the invalid-timestamp
error; with a parsed `since` every returned event is strictly newer and the
result enumerates a suffix (the most recent segment) of the qualifying list;
a POSITIVE `limit` caps the result length at `limit` (limit = 0 returns all
qualifying events, see the counterexample); and on a chronologically ordered
store the result is ordered most-recent first. -/
theorem C4_events_query_amended (parse : String → Option Int)
    (events : List Event) (limit : Option Int) (since : Option String) :
    (∀ str, since = some str → parse str = none →
      get_events parse events limit since = .error .invalidSince) ∧
    (∀ str t evs res, since = some str → parse str = some t →
      filterSince parse t events = some evs →
      get_events parse events limit since = .ok res →
      (∀ e ∈ res, ∃ te, parse e.time = some te ∧ t < te) ∧ res.reverse <:+ evs) ∧
    (since = none → ∀ res, get_events parse events limit since = .ok res →
      res.reverse <:+ events) ∧
    (∀ k res, limit = some k → 0 < k →
      get_events parse events limit since = .ok res → res.length ≤ k.toNat) ∧
    (∀ res, get_events parse events limit since = .ok res →
      events.Pairwise (fun e1 e2 => ∀ t1 t2, parse e1.time = some t1 →
        parse e2.time = some t2 → t1 ≤ t2) →
      res.Pairwise (fun e1 e2 => ∀ t1 t2, parse e1.time = some t1 →
        parse e2.time = some t2 → t2 ≤ t1)) := by
  constructor
  · intro str hs hp
    subst hs
    unfold get_events
    simp only [hp]
  constructor
  · intro str t evs res hs hp hf hres
    subst hs
    unfold get_events at hres
    simp only [hp, hf] at hres
    have hres2 : (applyLimit limit evs).reverse = res := by
      simpa using hres
    constructor
    · intro e he
      rw [← hres2] at he
      rw [List.mem_reverse] at he
      obtain ⟨n, hn⟩ := applyLimit_drop limit evs
      rw [hn] at he
      have hmem : e ∈ evs := List.mem_of_mem_drop he
      exact filterSince_mem parse t events evs hf e hmem
    · rw [← hres2, List.reverse_reverse]
      obtain ⟨n, hn⟩ := applyLimit_drop limit evs
      rw [hn]
      exact List.drop_suffix n evs
  constructor
  · intro hs res hres
    subst hs
    unfold get_events at hres
    have hres2 : (applyLimit limit events).reverse = res := by
      simpa using hres
    rw [← hres2, List.reverse_reverse]
    obtain ⟨n, hn⟩ := applyLimit_drop limit events
    rw [hn]
    exact List.drop_suffix n events
  constructor
  · intro k res hk hkpos hres
    subst hk
    cases hs : since with
    | none =>
      rw [hs] at hres
      unfold get_events at hres
      have hres2 : (applyLimit (some k) events).reverse = res := by
        simpa using hres
      rw [← hres2, List.length_reverse]
      exact applyLimit_length k hkpos events
    | some str =>
      rw [hs] at hres
      unfold get_events at hres
      cases hp : parse str with
      | none => simp only [hp] at hres; cases hres
      | some t =>
        simp only [hp] at hres
        cases hf : filterSince parse t events with
        | none => simp only [hf] at hres; cases hres
        | some evs =>
          simp only [hf] at hres
          have hres2 : (applyLimit (some k) evs).reverse = res := by
            simpa using hres
          rw [← hres2, List.length_reverse]
          exact applyLimit_length k hkpos evs
  · intro res hres hpw
    have base : ∃ evs, res = (applyLimit limit evs).reverse ∧ evs.Sublist events := by
      cases hs : since with
      | none =>
        rw [hs] at hres
        unfold get_events at hres
        exact ⟨events, by simpa using hres.symm, List.Sublist.refl events⟩
      | some str =>
        rw [hs] at hres
        unfold get_events at hres
        cases hp : parse str with
        | none => simp only [hp] at hres; cases hres
        | some t =>
          simp only [hp] at hres
          cases hf : filterSince parse t events with
          | none => simp only [hf] at hres; cases hres
          | some evs =>
            simp only [hf] at hres
            exact ⟨evs, by simpa using hres.symm,
              filterSince_sublist parse t events evs hf⟩
    obtain ⟨evs, hresEq, hsub⟩ := base
    obtain ⟨n, hn⟩ := applyLimit_drop limit evs
    subst hresEq
    rw [hn, List.pairwise_reverse]
    have hevs : evs.Pairwise (fun e1 e2 => ∀ t1 t2, parse e1.time = some t1 →
        parse e2.time = some t2 → t1 ≤ t2) := hpw.sublist hsub
    have hdrop : (evs.drop n).Pairwise (fun e1 e2 => ∀ t1 t2, parse e1.time = some t1 →
        parse e2.time = some t2 → t1 ≤ t2) := hevs.sublist (List.drop_sublist n evs)
    exact hdrop.imp (fun h t1 t2 h1 h2 => h t2 t1 h2 h1)

/-- Witness for C4 (amended), exercised on a concrete two-event store with a
positive limit: the cap and the invalid-since rejection both discharge. -/
theorem C4_events_query_amended_witness :
    ([sampleEvent2] : List Event).length ≤ (1 : Int).toNat ∧
    get_events (fun _ => none) [sampleEvent, sampleEvent2] none (some "garbage") =
      .error .invalidSince :=
  ⟨(C4_events_query_amended (fun _ => some 0) [sampleEvent, sampleEvent2]
      (some 1) none).2.2.2.1 1 [sampleEvent2] rfl (by decide) (by rfl),
   (C4_events_query_amended (fun _ => none) [sampleEvent, sampleEvent2]
      none (some "garbage")).1 "garbage" rfl rfl⟩

/-- models.RobotStatus. -/
inductive RobotStatus where
  | IDLE
  | EXECUTING
deriving DecidableEq, Repr

/-- models.OrderStatus. -/
inductive OrderStatus where
  | NEW
  | IN_PROGRESS
  | DONE
  | FAILED
deriving DecidableEq, Repr

/-- models.Robot. -/
structure Robot where
  name : String
  status : RobotStatus
  node : String
deriving DecidableEq, Repr

/-- models.Order. -/
structure Order where
  name : String
  source : String
  target : String
  status : OrderStatus
deriving DecidableEq, Repr

/-- models.Route.  next_index is the cursor into path; remaining_weight is the
residual cost of the edge being traversed (an Int so that non-negativity is a
property, not a typing artifact; the model default is 0). -/
structure Route where
  robot : String
  next_index : Nat
  order : String
  path : List String
  remaining_weight : Int
deriving DecidableEq, Repr

/-- models.STATE: the in-memory aggregate of orders, robots, routes, events. -/
structure SysState where
  orders : List Order
  robots : List Robot
  routes : List Route
  events : List Event
deriving DecidableEq, Repr

/-- helpers.log_event: append an Event.  The wall-clock timestamp
(datetime.utcnow) is outside the model and is stored as ""; no claim about the
engine depends on stored event times. -/
def log_event (type_ : String) (detail : List (String × Val)) (s : SysState) : SysState :=
  { s with events := s.events ++ [{ time := "", type := type_, detail := detail }] }

/-- Set the status of the robot with the given name.  Names are unique in every
roster the system builds, so the by-name map matches Python's mutation of the
single looked-up object. -/
def updateRobotStatus (name : String) (st : RobotStatus) (robots : List Robot) : List Robot :=
  robots.map (fun r => if r.name == name then { r with status := st } else r)

/-- Set the status of the order with the given name (names unique, as above). -/
def updateOrderStatus (name : String) (st : OrderStatus) (orders : List Order) : List Order :=
  orders.map (fun o => if o.name == name then { o with status := st } else o)

/-- Replace the robot with the given name (tick mutates the looked-up robot
object's node and status in place). -/
def setRobot (rob : Robot) (robots : List Robot) : List Robot :=
  robots.map (fun r => if r.name == rob.name then rob else r)

/-- One iteration of the best-robot loop in helpers.assign_nearest_idle_robot:
compute shortest_path(r.node, src), skipping the robot on ValueError; replace
the incumbent when strictly closer, or equally close with the lexicographically
smaller name (Python `r.name < best_robot.name`, rendered with strLt). -/
def selectStep (src : String) (best : Option (Robot × Nat × List String)) (r : Robot) :
    Option (Robot × Nat × List String) :=
  match spTotal r.node src with
  | .error _ => best
  | .ok (d, p) =>
    match best with
    | none => some (r, d, p)
    | some (b, bd, bp) =>
      if d < bd ∨ (d = bd ∧ strLt r.name b.name = true) then some (r, d, p)
      else some (b, bd, bp)

/-- The whole best-robot loop, folded over the idle roster in list order. -/
def selectFrom (src : String) : Option (Robot × Nat × List String) → List Robot →
    Option (Robot × Nat × List String)
  | best, [] => best
  | best, r :: rs => selectFrom src (selectStep src best r) rs

/-- Why helpers.assign_nearest_idle_robot stops before constructing a Route. -/
inductive AssignStop where
  | noIdle
  | noReachable
  | routingError
deriving DecidableEq, Repr

/-- The selection-and-routing phase of helpers.assign_nearest_idle_robot (all
of the function up to and excluding the status mutations): the idle filter,
the best-robot loop, the source-to-target path and the combined full path. -/
inductive AssignPlan where
  | stop (why : AssignStop)
  | plan (robotName : String) (fullPath : List String)
deriving DecidableEq, Repr

def assign_plan (o : Order) (s : SysState) : AssignPlan :=
  if (s.robots.filter (fun r => r.status == RobotStatus.IDLE)).isEmpty then .stop .noIdle
  else
    match selectFrom o.source none (s.robots.filter (fun r => r.status == RobotStatus.IDLE)) with
    | none => .stop .noReachable
    | some (best, _, path_to_source) =>
      match spTotal o.source o.target with
      | .error _ => .stop .routingError
      | .ok (_, p2) => .plan best.name (path_to_source ++ p2.tail)

/-- How a call of helpers.assign_nearest_idle_robot actually ends. -/
inductive AssignResult where
  | returnedNone
  | raisedRouting
  | raisedValidation
deriving DecidableEq, Repr

/-- Faithful embedding of helpers.assign_nearest_idle_robot.  With no idle or
no reachable idle robot it returns None with the state untouched; a ValueError
from shortest_path(order.source, order.target) propagates with the state still
untouched.  Otherwise it sets the chosen robot EXECUTING and the order
IN_PROGRESS — and then the call `Route(robot=..., path=..., order=...)` raises
pydantic ValidationError, because models.Route declares next_index as a
required field and the call omits it.  So the function can never return a
Route nor reach the `STATE["routes"].append(...)` line; the mutations above
are already visible when the exception propagates. -/
def assign_nearest_idle_robot (o : Order) (s : SysState) : AssignResult × SysState :=
  match assign_plan o s with
  | .stop .noIdle => (.returnedNone, s)
  | .stop .noReachable => (.returnedNone, s)
  | .stop .routingError => (.raisedRouting, s)
  | .plan robotName _fullPath =>
    (.raisedValidation,
      { s with
        robots := updateRobotStatus robotName RobotStatus.EXECUTING s.robots,
        orders := updateOrderStatus o.name OrderStatus.IN_PROGRESS s.orders })

/-- The assignment as models.Route, main.tick, and the repository's tests
expect it: identical to assign_nearest_idle_robot except that the Route
construction succeeds, with next_index = 0 (the value the store records in the
appended dict) and the model default remaining_weight = 0.  Used to express
the states the tick engine is meant to run on. -/
def assignFixed (o : Order) (s : SysState) : Option Route × SysState :=
  match assign_plan o s with
  | .stop _ => (none, s)
  | .plan robotName fullPath =>
    let route : Route :=
      { robot := robotName, next_index := 0, order := o.name,
        path := fullPath, remaining_weight := 0 }
    (some route,
      { s with
        robots := updateRobotStatus robotName RobotStatus.EXECUTING s.robots,
        orders := updateOrderStatus o.name OrderStatus.IN_PROGRESS s.orders,
        routes := s.routes ++ [route] })

/-- models.SEED_ROBOTS. -/
def SEED_ROBOTS : List Robot :=
  [⟨"R1", .IDLE, "A"⟩, ⟨"R2", .EXECUTING, "C"⟩, ⟨"R3", .IDLE, "E"⟩]

/-- models.SEED_ORDERS. -/
def SEED_ORDERS : List Order := [⟨"O-1001", "B", "D", .NEW⟩]

/-- The process state after main.seed_state: seeded orders and robots, empty
route store and event log. -/
def initState : SysState :=
  { orders := SEED_ORDERS, robots := SEED_ROBOTS, routes := [], events := [] }

/-- C2 (code bug): on a state where assignment must succeed (one idle robot
that can reach the order), the literal code never returns or stores a Route:
the `Route(robot=..., path=..., order=...)` call omits the required next_index
field of models.Route, so pydantic raises ValidationError — after the robot
was already set EXECUTING and the order IN_PROGRESS.  The route store stays
empty and nothing is returned, contradicting the claimed postcondition; the
repository's own tests (test_assign_nearest_idle_robot, test_route_saved_in_state)
expect the claimed behavior. -/
theorem C2_assign_route_construction_crash :
    assign_nearest_idle_robot ⟨"O1", "B", "D", .NEW⟩
      { orders := [⟨"O1", "B", "D", .NEW⟩], robots := [⟨"R1", .IDLE, "A"⟩],
        routes := [], events := [] } =
    (.raisedValidation,
      { orders := [⟨"O1", "B", "D", .IN_PROGRESS⟩],
        robots := [⟨"R1", .EXECUTING, "A"⟩],
        routes := [], events := [] }) := by rfl

/-- C6 (code bug): when assignment fails by raising (the Route constructor
ValidationError of C2), the State is NOT left unchanged: the chosen vehicle is
already EXECUTING and the order already IN_PROGRESS, a visible partial
assignment with no Route stored.  (The three failure modes the claim lists —
no idle robot, no reachable idle robot, routing error — do leave the state
unchanged, as the returnedNone/raisedRouting branches of the embedding show.) -/
theorem C6_partial_assignment_visible :
    (assign_nearest_idle_robot ⟨"O2", "A", "F", .NEW⟩
        { orders := [⟨"O2", "A", "F", .NEW⟩], robots := [⟨"R2", .IDLE, "E"⟩],
          routes := [], events := [] }).1 = .raisedValidation ∧
    (assign_nearest_idle_robot ⟨"O2", "A", "F", .NEW⟩
        { orders := [⟨"O2", "A", "F", .NEW⟩], robots := [⟨"R2", .IDLE, "E"⟩],
          routes := [], events := [] }).2 ≠
      { orders := [⟨"O2", "A", "F", .NEW⟩], robots := [⟨"R2", .IDLE, "E"⟩],
        routes := [], events := [] } ∧
    (assign_nearest_idle_robot ⟨"O2", "A", "F", .NEW⟩
        { orders := [⟨"O2", "A", "F", .NEW⟩], robots := [⟨"R2", .IDLE, "E"⟩],
          routes := [], events := [] }).2 =
      { orders := [⟨"O2", "A", "F", .IN_PROGRESS⟩],
        robots := [⟨"R2", .EXECUTING, "E"⟩], routes := [], events := [] } := by
  refine ⟨rfl, ?_, rfl⟩
  decide

lemma selectStep_err (src : String) (acc : Option (Robot × Nat × List String))
    (r : Robot) (e : PathError) (h : spTotal r.node src = .error e) :
    selectStep src acc r = acc := by
  unfold selectStep; rw [h]

lemma selectStep_ok_none (src : String) (r : Robot) (d : Nat) (p : List String)
    (h : spTotal r.node src = .ok (d, p)) :
    selectStep src none r = some (r, d, p) := by
  unfold selectStep; rw [h]

lemma selectStep_ok_pos (src : String) (r b : Robot) (d bd : Nat) (p bp : List String)
    (h : spTotal r.node src = .ok (d, p))
    (hc : d < bd ∨ (d = bd ∧ strLt r.name b.name = true)) :
    selectStep src (some (b, bd, bp)) r = some (r, d, p) := by
  unfold selectStep; rw [h]; exact if_pos hc

lemma selectStep_ok_neg (src : String) (r b : Robot) (d bd : Nat) (p bp : List String)
    (h : spTotal r.node src = .ok (d, p))
    (hc : ¬(d < bd ∨ (d = bd ∧ strLt r.name b.name = true))) :
    selectStep src (some (b, bd, bp)) r = some (b, bd, bp) := by
  unfold selectStep; rw [h]; exact if_neg hc

/-- Lexicographic (cost, name) dominance is transitive across the not-replaced
test of the selection loop. -/
lemma lexDom_trans {d bd dx : Nat} {rn bn xn : String}
    (h1 : d < bd ∨ (d = bd ∧ rn ≤ bn)) (h2 : bd < dx ∨ (bd = dx ∧ bn ≤ xn)) :
    d < dx ∨ (d = dx ∧ rn ≤ xn) := by
  rcases h1 with h1 | ⟨h1, h1n⟩
  · rcases h2 with h2 | ⟨h2, h2n⟩
    · exact Or.inl (lt_trans h1 h2)
    · exact Or.inl (h2 ▸ h1)
  · rcases h2 with h2 | ⟨h2, h2n⟩
    · exact Or.inl (h1 ▸ h2)
    · exact Or.inr ⟨h1.trans h2, le_trans h1n h2n⟩

/-- A failed replacement test means the incumbent dominates the candidate. -/
lemma lexDom_of_not_repl {dx bd : Nat} {xn bn : String}
    (hc : ¬(dx < bd ∨ (dx = bd ∧ strLt xn bn = true))) :
    bd < dx ∨ (bd = dx ∧ bn ≤ xn) := by
  push_neg at hc
  rcases Nat.lt_or_ge bd dx with h1 | h1
  · exact Or.inl h1
  · have hbd : bd = dx := le_antisymm hc.1 h1
    subst hbd
    have hns := hc.2 rfl
    have hnlt : ¬ xn < bn := fun hcon => hns ((strLt_iff xn bn).mpr hcon)
    exact Or.inr ⟨rfl, le_of_not_lt hnlt⟩

lemma selectFrom_sound (src : String) :
    ∀ (rs : List Robot) (acc : Option (Robot × Nat × List String))
      (r : Robot) (d : Nat) (p : List String),
      selectFrom src acc rs = some (r, d, p) →
      (some (r, d, p) = acc ∨ (r ∈ rs ∧ spTotal r.node src = .ok (d, p))) ∧
      (∀ b0 bd0 bp0, acc = some (b0, bd0, bp0) →
        d < bd0 ∨ (d = bd0 ∧ r.name ≤ b0.name)) ∧
      (∀ r2 ∈ rs, ∀ d2 p2, spTotal r2.node src = .ok (d2, p2) →
        d < d2 ∨ (d = d2 ∧ r.name ≤ r2.name)) := by
  intro rs
  induction rs with
  | nil =>
    intro acc r d p h
    refine ⟨Or.inl h.symm, ?_, ?_⟩
    · intro b0 bd0 bp0 hacc
      rw [hacc] at h
      cases h
      exact Or.inr ⟨rfl, le_refl _⟩
    · intro r2 h2; simp at h2
  | cons x rs ih =>
    intro acc r d p h
    obtain ⟨hprov, haccdom, hrsdom⟩ := ih (selectStep src acc x) r d p h
    cases hsp : spTotal x.node src with
    | error e0 =>
      have hse := selectStep_err src acc x e0 hsp
      rw [hse] at hprov haccdom
      refine ⟨?_, haccdom, ?_⟩
      · cases hprov with
        | inl h1 => exact Or.inl h1
        | inr h1 => exact Or.inr ⟨List.mem_cons_of_mem x h1.1, h1.2⟩
      · intro r2 hr2 d2 p2 hsp2
        cases hr2 with
        | head => rw [hsp] at hsp2; cases hsp2
        | tail _ hmem => exact hrsdom r2 hmem d2 p2 hsp2
    | ok v =>
      obtain ⟨dx, px⟩ := v
      cases acc with
      | none =>
        have hse := selectStep_ok_none src x dx px hsp
        rw [hse] at hprov haccdom
        have hdomx : d < dx ∨ (d = dx ∧ r.name ≤ x.name) := haccdom x dx px rfl
        refine ⟨?_, ?_, ?_⟩
        · cases hprov with
          | inl h1 =>
            have h2 : r = x ∧ d = dx ∧ p = px := by
              cases h1.symm; exact ⟨rfl, rfl, rfl⟩
            obtain ⟨e1, e2, e3⟩ := h2
            rw [e1, e2, e3]
            exact Or.inr ⟨List.mem_cons_self x rs, hsp⟩
          | inr h1 => exact Or.inr ⟨List.mem_cons_of_mem x h1.1, h1.2⟩
        · intro b0 bd0 bp0 hcon; cases hcon
        · intro r2 hr2 d2 p2 hsp2
          cases hr2 with
          | head =>
            rw [hsp] at hsp2
            have h2 : dx = d2 ∧ px = p2 := by cases hsp2; exact ⟨rfl, rfl⟩
            exact h2.1 ▸ hdomx
          | tail _ hmem => exact hrsdom r2 hmem d2 p2 hsp2
      | some b =>
        obtain ⟨b0, bd0, bp0⟩ := b
        by_cases hc : dx < bd0 ∨ (dx = bd0 ∧ strLt x.name b0.name = true)
        · have hse := selectStep_ok_pos src x b0 dx bd0 px bp0 hsp hc
          rw [hse] at hprov haccdom
          have hdomx : d < dx ∨ (d = dx ∧ r.name ≤ x.name) := haccdom x dx px rfl
          have hcw : dx < bd0 ∨ (dx = bd0 ∧ x.name ≤ b0.name) := by
            rcases hc with h1 | ⟨h1, h2⟩
            · exact Or.inl h1
            · exact Or.inr ⟨h1, le_of_lt ((strLt_iff _ _).mp h2)⟩
          refine ⟨?_, ?_, ?_⟩
          · cases hprov with
            | inl h1 =>
              have h2 : r = x ∧ d = dx ∧ p = px := by
                cases h1.symm; exact ⟨rfl, rfl, rfl⟩
              obtain ⟨e1, e2, e3⟩ := h2
              rw [e1, e2, e3]
              exact Or.inr ⟨List.mem_cons_self x rs, hsp⟩
            | inr h1 => exact Or.inr ⟨List.mem_cons_of_mem x h1.1, h1.2⟩
          · intro b1 bd1 bp1 hacc1
            have h2 : b0 = b1 ∧ bd0 = bd1 ∧ bp0 = bp1 := by
              cases hacc1; exact ⟨rfl, rfl, rfl⟩
            obtain ⟨e1, e2, e3⟩ := h2
            subst e1; subst e2; subst e3
            exact lexDom_trans hdomx hcw
          · intro r2 hr2 d2 p2 hsp2
            cases hr2 with
            | head =>
              rw [hsp] at hsp2
              have h2 : dx = d2 ∧ px = p2 := by cases hsp2; exact ⟨rfl, rfl⟩
              exact h2.1 ▸ hdomx
            | tail _ hmem => exact hrsdom r2 hmem d2 p2 hsp2
        · have hse := selectStep_ok_neg src x b0 dx bd0 px bp0 hsp hc
          rw [hse] at hprov haccdom
          have hdomb : d < bd0 ∨ (d = bd0 ∧ r.name ≤ b0.name) := haccdom b0 bd0 bp0 rfl
          have hbx : bd0 < dx ∨ (bd0 = dx ∧ b0.name ≤ x.name) := lexDom_of_not_repl hc
          refine ⟨?_, ?_, ?_⟩
          · cases hprov with
            | inl h1 => exact Or.inl h1
            | inr h1 => exact Or.inr ⟨List.mem_cons_of_mem x h1.1, h1.2⟩
          · intro b1 bd1 bp1 hacc1
            have h2 : b0 = b1 ∧ bd0 = bd1 ∧ bp0 = bp1 := by
              cases hacc1; exact ⟨rfl, rfl, rfl⟩
            obtain ⟨e1, e2, e3⟩ := h2
            subst e1; subst e2; subst e3
            exact hdomb
          · intro r2 hr2 d2 p2 hsp2
            cases hr2 with
            | head =>
              rw [hsp] at hsp2
              have h2 : dx = d2 ∧ px = p2 := by cases hsp2; exact ⟨rfl, rfl⟩
              exact h2.1 ▸ lexDom_trans hdomb hbx
            | tail _ hmem => exact hrsdom r2 hmem d2 p2 hsp2

lemma selectFrom_none (src : String) :
    ∀ (rs : List Robot) (acc : Option (Robot × Nat × List String)),
      selectFrom src acc rs = none →
      acc = none ∧ ∀ r ∈ rs, ∀ d p, spTotal r.node src ≠ .ok (d, p) := by
  intro rs
  induction rs with
  | nil =>
    intro acc h
    exact ⟨h, by intro r hr; simp at hr⟩
  | cons x rs ih =>
    intro acc h
    obtain ⟨hstep, hrest⟩ := ih (selectStep src acc x) h
    cases hsp : spTotal x.node src with
    | error e0 =>
      rw [selectStep_err src acc x e0 hsp] at hstep
      refine ⟨hstep, ?_⟩
      intro r hr d p
      cases hr with
      | head => rw [hsp]; intro hcon; cases hcon
      | tail _ hmem => exact hrest r hmem d p
    | ok v =>
      obtain ⟨dx, px⟩ := v
      cases acc with
      | none => rw [selectStep_ok_none src x dx px hsp] at hstep; cases hstep
      | some b =>
        obtain ⟨b0, bd0, bp0⟩ := b
        by_cases hc : dx < bd0 ∨ (dx = bd0 ∧ strLt x.name b0.name = true)
        · rw [selectStep_ok_pos src x b0 dx bd0 px bp0 hsp hc] at hstep; cases hstep
        · rw [selectStep_ok_neg src x b0 dx bd0 px bp0 hsp hc] at hstep; cases hstep

/-- C5: the selection loop of assign_nearest_idle_robot considers exactly the
IDLE robots, skips robots with no path to the order's source, and returns an
idle robot whose path cost to the source is minimal, with cost ties broken
toward the lexicographically smallest robot name; when it returns none, no
idle robot has a path to the source. -/
theorem C5_selection_policy (robots : List Robot) (src : String) :
    (∀ r d p,
      selectFrom src none (robots.filter (fun x => x.status == RobotStatus.IDLE)) =
        some (r, d, p) →
      r ∈ robots ∧ r.status = RobotStatus.IDLE ∧ spTotal r.node src = .ok (d, p) ∧
      ∀ r2 ∈ robots, r2.status = RobotStatus.IDLE →
        ∀ d2 p2, spTotal r2.node src = .ok (d2, p2) →
        d < d2 ∨ (d = d2 ∧ r.name ≤ r2.name)) ∧
    (selectFrom src none (robots.filter (fun x => x.status == RobotStatus.IDLE)) = none →
      ∀ r ∈ robots, r.status = RobotStatus.IDLE →
        ∀ d p, spTotal r.node src ≠ .ok (d, p)) := by
  constructor
  · intro r d p h
    obtain ⟨hprov, -, hdom⟩ :=
      selectFrom_sound src (robots.filter (fun x => x.status == RobotStatus.IDLE)) none r d p h
    cases hprov with
    | inl hcon => cases hcon
    | inr hmem =>
      have hmem2 := List.mem_filter.mp hmem.1
      refine ⟨hmem2.1, by simpa using hmem2.2, hmem.2, ?_⟩
      intro r2 hr2 hst2 d2 p2 hsp2
      have hr2f : r2 ∈ robots.filter (fun x => x.status == RobotStatus.IDLE) :=
        List.mem_filter.mpr ⟨hr2, by simpa using hst2⟩
      exact hdom r2 hr2f d2 p2 hsp2
  · intro h r hr hst d p
    obtain ⟨-, hrest⟩ :=
      selectFrom_none src (robots.filter (fun x => x.status == RobotStatus.IDLE)) none h
    exact hrest r (List.mem_filter.mpr ⟨hr, by simpa using hst⟩) d p

/-- Witness for C5 on a two-robot tie: both idle robots sit two hops from the
source at equal cost and the lexicographically smaller name R0 wins. -/
theorem C5_selection_policy_witness :
    (⟨"R0", .IDLE, "A"⟩ : Robot) ∈
        [(⟨"R0", .IDLE, "A"⟩ : Robot), ⟨"R1", .IDLE, "A"⟩] ∧
      (⟨"R0", .IDLE, "A"⟩ : Robot).status = RobotStatus.IDLE ∧
      spTotal "A" "B" = .ok (1, ["A", "B"]) ∧
      ∀ r2 ∈ [(⟨"R0", .IDLE, "A"⟩ : Robot), ⟨"R1", .IDLE, "A"⟩],
        r2.status = RobotStatus.IDLE →
        ∀ d2 p2, spTotal r2.node "B" = .ok (d2, p2) →
        1 < d2 ∨ (1 = d2 ∧ ("R0" : String) ≤ r2.name) :=
  (C5_selection_policy [⟨"R0", .IDLE, "A"⟩, ⟨"R1", .IDLE, "A"⟩] "B").1
    ⟨"R0", .IDLE, "A"⟩ 1 ["A", "B"] (by rfl)

/-- The edge-weight lookup when a route starts a new edge in main.tick: the
weight of the edge between path[next_index] and path[next_index + 1] in either
direction, with the defensive default 1 (via effWeight) when absent.  The
enclosing guard makes both reads in-bounds, so getD never pads. -/
def startEdgeWeight (r : Route) : Int :=
  (effWeight (r.path.getD r.next_index "") (r.path.getD (r.next_index + 1) "") : Int)

/-- Step 1 of the per-route state machine in main.tick: if remaining_weight is
0 and the cursor is not at the last index, begin traversal of the next edge by
loading its weight. -/
def resetRoute (r : Route) : Route :=
  if r.remaining_weight = 0 ∧ r.next_index + 1 < r.path.length then
    { r with remaining_weight := startEdgeWeight r }
  else r

/-- Step 3 of main.tick: if the current edge is finished and the cursor is not
at the last index, advance the cursor, move the robot to the new node, and log
robot_arrived. -/
def advanceStep (rob : Robot) (r : Route) (s : SysState) : Robot × Route × SysState :=
  if r.remaining_weight ≤ 0 ∧ r.next_index + 1 < r.path.length then
    let r3 : Route := { r with next_index := r.next_index + 1 }
    let rob2 : Robot := { rob with node := r3.path.getD r3.next_index "" }
    (rob2, r3,
      log_event "robot_arrived" [("robot", .str rob2.name), ("at", .str rob2.node)] s)
  else (rob, r, s)

/-- Steps 2 and 3 of main.tick: when remaining_weight > 0, decrement it by one
tick and log robot_moving — whose read of path[next_index + 1] is unguarded, a
`none` being Python's uncaught IndexError — then run the advance step. -/
def moveRoute (rob : Robot) (r : Route) (s : SysState) : Option (Robot × Route × SysState) :=
  if 0 < r.remaining_weight then
    match r.path.get? (r.next_index + 1) with
    | none => none
    | some toNode =>
      let r2 : Route := { r with remaining_weight := r.remaining_weight - 1 }
      some (advanceStep rob r2
        (log_event "robot_moving"
          [("robot", .str rob.name), ("from", .str rob.node), ("to", .str toNode),
           ("remaining_weight", .int r2.remaining_weight)] s))
  else some (advanceStep rob r s)

/-- The body of the `for route in STATE["routes"]` loop of main.tick, for the
route at index `i`: look up the robot (a missing robot is the uncaught
StopIteration of `next(...)`, rendered `none`), run the reset / move / advance
steps, then the completion block: when the cursor sits at the last index, set
the robot IDLE, mark the order DONE (a missing order again `none`), remove the
mutated route — the first structurally equal entry, exactly as Python
`list.remove` with pydantic structural equality — and log order_completed.
The completion block is split out as finishRoute; tickBody below is the whole
loop body. -/
def finishRoute (i : Nat) (rob3 : Robot) (r3 : Route) (s3 : SysState) : Option SysState :=
  if r3.next_index + 1 = r3.path.length then
    let rob4 : Robot := { rob3 with status := RobotStatus.IDLE }
    match s3.orders.find? (fun o => o.name == r3.order) with
    | none => none
    | some ord =>
      some (log_event "order_completed"
        [("order", .str ord.name), ("robot", .str rob4.name), ("at", .str rob4.node)]
        { s3 with
          robots := setRobot rob4 s3.robots,
          orders := updateOrderStatus ord.name OrderStatus.DONE s3.orders,
          routes := (s3.routes.set i r3).erase r3 })
  else
    some { s3 with robots := setRobot rob3 s3.robots, routes := s3.routes.set i r3 }

def tickBody (s : SysState) (i : Nat) (r : Route) : Option SysState :=
  match s.robots.find? (fun rb => rb.name == r.robot) with
  | none => none
  | some rob =>
    match moveRoute rob (resetRoute r) s with
    | none => none
    | some x => finishRoute i x.1 x.2.1 x.2.2

/-- The route loop of main.tick.  Python's `for` keeps an advancing internal
index while `list.remove` shifts later elements left, so the element that
follows a removed one is skipped; iterating by index over the live list models
exactly that.  `fuel` only bounds the iteration count; tick passes the initial
list length, which suffices because every iteration advances `i` while the
list never grows. -/
def tickLoop : Nat → SysState → Nat → Option SysState
  | 0, s, _ => some s
  | fuel + 1, s, i =>
    match s.routes.get? i with
    | none => some s
    | some r =>
      match tickBody s i r with
      | none => none
      | some s2 => tickLoop fuel s2 (i + 1)

/-- The re-assignment loop at the end of main.tick: assign every order whose
status is NEW or FAILED, in list order.  Orders are neither added nor removed,
so index iteration with fuel = length is exact.  The literal assignment call
raises on success (see C2 and assign_nearest_idle_robot); the intended,
non-raising assignFixed is used so that the engine's behavior is expressible. -/
def retryLoop : Nat → SysState → Nat → SysState
  | 0, s, _ => s
  | fuel + 1, s, i =>
    match s.orders.get? i with
    | none => s
    | some o =>
      if o.status = OrderStatus.NEW ∨ o.status = OrderStatus.FAILED then
        retryLoop fuel (assignFixed o s).2 (i + 1)
      else retryLoop fuel s (i + 1)

/-- main.tick: process the route store, re-attempt assignment for NEW/FAILED
orders, and log tick_processed. -/
def tick (s : SysState) : Option SysState :=
  match tickLoop s.routes.length s 0 with
  | none => none
  | some s1 => some (log_event "tick_processed" [] (retryLoop s1.orders.length s1 0))

/-- main.add_order: validate the endpoints against the graph and the name
against existing orders (HTTP 400/409 rejections are `none`), append the NEW
order, attempt assignment (assignFixed, see C2), and log order_created. -/
def add_order (name source target : String) (s : SysState) : Option SysState :=
  if source ∈ GRAPH.nodes ∧ target ∈ GRAPH.nodes then
    if s.orders.any (fun o => o.name == name) then none
    else
      let o : Order := ⟨name, source, target, OrderStatus.NEW⟩
      let s1 : SysState := { s with orders := s.orders ++ [o] }
      some (log_event "order_created"
        [("order", .str name), ("source", .str source), ("target", .str target)]
        (assignFixed o s1).2)
  else none

/-- States reachable from the seeded start by add_order and tick calls (with
the intended assignment assignFixed standing in for the raising literal one,
see C2). -/
inductive Reachable : SysState → Prop where
  | seed : Reachable initState
  | tick_step {s s2 : SysState} : Reachable s → tick s = some s2 → Reachable s2
  | order_step {s s2 : SysState} (name source target : String) :
      Reachable s → add_order name source target s = some s2 → Reachable s2

/-- C3 (code bug): a tick on a store holding two active routes, of which the
first completes this tick.  Python's in-loop `STATE["routes"].remove(route)`
makes the iterator skip the next route: the second route ⟨R2, O2, [A, B]⟩ is
active at the start of the call yet receives no state-machine step — its
cursor and remaining weight are untouched, robot R2 does not move, and no
robot_moving or robot_arrived event is logged for it — contradicting the claim
that every route active at the start of the call is stepped. -/
theorem C3_tick_skips_route_after_removal :
    tick { orders := [⟨"O1", "B", "B", .IN_PROGRESS⟩, ⟨"O2", "A", "B", .IN_PROGRESS⟩],
           robots := [⟨"R1", .EXECUTING, "B"⟩, ⟨"R2", .EXECUTING, "A"⟩],
           routes := [⟨"R1", 0, "O1", ["B"], 0⟩, ⟨"R2", 0, "O2", ["A", "B"], 0⟩],
           events := [] } =
    some { orders := [⟨"O1", "B", "B", .DONE⟩, ⟨"O2", "A", "B", .IN_PROGRESS⟩],
           robots := [⟨"R1", .IDLE, "B"⟩, ⟨"R2", .EXECUTING, "A"⟩],
           routes := [⟨"R2", 0, "O2", ["A", "B"], 0⟩],
           events := [⟨"", "order_completed",
                        [("order", .str "O1"), ("robot", .str "R1"), ("at", .str "B")]⟩,
                      ⟨"", "tick_processed", []⟩] } := by rfl

/-- Route well-formedness, maintained by assignment and tick: the cursor is in
bounds, the remaining weight is non-negative, and a strictly positive
remaining weight means an edge is being traversed, so the cursor is not at the
last index. -/
def RouteWF (r : Route) : Prop :=
  r.next_index < r.path.length ∧ 0 ≤ r.remaining_weight ∧
  (0 < r.remaining_weight → r.next_index + 1 < r.path.length)

/-- State well-formedness: every stored route is well formed and names an
existing robot and an existing order. -/
def StateWF (s : SysState) : Prop :=
  (∀ r ∈ s.routes, RouteWF r) ∧
  (∀ r ∈ s.routes, ∃ rob ∈ s.robots, rob.name = r.robot) ∧
  (∀ r ∈ s.routes, ∃ o ∈ s.orders, o.name = r.order)

/-- Ticks needed to finish a live route: 1 when the cursor already sits at the
last index; otherwise the (possibly not yet loaded) residue of the current
edge plus the weights of all later edges. -/
def routeMeasure (r : Route) : Nat :=
  if r.next_index + 1 = r.path.length then 1
  else
    (if r.remaining_weight = 0 then
      effWeight (r.path.getD r.next_index "") (r.path.getD (r.next_index + 1) "")
    else r.remaining_weight.toNat) +
    pathCost (r.path.drop (r.next_index + 1))

lemma one_le_effWeight (u v : String) : 1 ≤ effWeight u v := by
  unfold effWeight
  cases hfind : edgeFind u v with
  | none => exact le_refl 1
  | some e =>
    have hmem : e ∈ GRAPH.edges := List.mem_of_find?_eq_some hfind
    have : ∀ e0 ∈ GRAPH.edges, 1 ≤ e0.weight := by decide
    exact this e hmem

lemma getD_of_lt (l : List String) (n : Nat) (d : String) (h : n < l.length) :
    l.getD n d = l[n] := by
  rw [List.getD_eq_getElem?_getD, List.getElem?_eq_getElem h]
  rfl

lemma pathCost_short (l : List String) (h : l.length ≤ 1) : pathCost l = 0 := by
  cases l with
  | nil => rfl
  | cons x t =>
    cases t with
    | nil => rfl
    | cons y t2 => simp at h

lemma pathCost_drop (p : List String) (j : Nat) (h : j + 1 < p.length) :
    pathCost (p.drop j) =
      effWeight (p.getD j "") (p.getD (j + 1) "") + pathCost (p.drop (j + 1)) := by
  have hj : j < p.length := Nat.lt_of_succ_lt h
  rw [getD_of_lt p j "" hj, getD_of_lt p (j + 1) "" h]
  rw [List.drop_eq_getElem_cons hj]
  rw [List.drop_eq_getElem_cons h]
  rfl

lemma popMin_mem : ∀ (l : List HeapEntry) (m : HeapEntry) (rest : List HeapEntry),
    popMin l = some (m, rest) → m ∈ l := by
  intro l
  induction l with
  | nil => intro m rest h; cases h
  | cons e es ih =>
    intro m rest h
    unfold popMin at h
    cases hrec : popMin es with
    | none =>
      simp only [hrec] at h
      have hfst : e = m := congrArg (fun v => v.1) (Option.some_inj.mp h)
      rw [← hfst]
      exact List.mem_cons_self e es
    | some v =>
      obtain ⟨m2, rest2⟩ := v
      simp only [hrec] at h
      by_cases hlt : entryLt m2 e = true
      · rw [if_pos hlt] at h
        have hfst : m2 = m := congrArg (fun v => v.1) (Option.some_inj.mp h)
        rw [← hfst]
        exact List.mem_cons_of_mem e (ih m2 rest2 hrec)
      · rw [if_neg hlt] at h
        have hfst : e = m := congrArg (fun v => v.1) (Option.some_inj.mp h)
        rw [← hfst]
        exact List.mem_cons_self e es

lemma popMin_rest_mem : ∀ (l : List HeapEntry) (m : HeapEntry) (rest : List HeapEntry),
    popMin l = some (m, rest) → ∀ x ∈ rest, x ∈ l := by
  intro l
  induction l with
  | nil => intro m rest h; cases h
  | cons e es ih =>
    intro m rest h x hx
    unfold popMin at h
    cases hrec : popMin es with
    | none =>
      simp only [hrec] at h
      have hsnd : ([] : List HeapEntry) = rest := congrArg (fun v => v.2) (Option.some_inj.mp h)
      rw [← hsnd] at hx
      simp at hx
    | some v =>
      obtain ⟨m2, rest2⟩ := v
      simp only [hrec] at h
      by_cases hlt : entryLt m2 e = true
      · rw [if_pos hlt] at h
        have hsnd : e :: rest2 = rest := congrArg (fun v => v.2) (Option.some_inj.mp h)
        rw [← hsnd] at hx
        cases hx with
        | head => exact List.mem_cons_self e es
        | tail _ hmem =>
          exact List.mem_cons_of_mem e (ih m2 rest2 hrec x hmem)
      · rw [if_neg hlt] at h
        have hsnd : es = rest := congrArg (fun v => v.2) (Option.some_inj.mp h)
        rw [← hsnd] at hx
        exact List.mem_cons_of_mem e hx

lemma dijkstraLoop_path_ne_nil (goal : String) :
    ∀ (fuel : Nat) (heap : List HeapEntry) (visited : List (String × Nat)),
      (∀ e ∈ heap, e.2.2 ≠ []) →
      ∀ c p, dijkstraLoop goal fuel heap visited = some (.ok (c, p)) → p ≠ [] := by
  intro fuel
  induction fuel with
  | zero =>
    intro heap visited hne c p h
    unfold dijkstraLoop at h
    by_cases he : heap.isEmpty
    · rw [if_pos he] at h; cases h
    · rw [if_neg he] at h; cases h
  | succ fuel ih =>
    intro heap visited hne c p h
    unfold dijkstraLoop at h
    cases hpop : popMin heap with
    | none => simp only [hpop] at h; cases h
    | some v =>
      obtain ⟨⟨d, node, path⟩, rest⟩ := v
      simp only [hpop] at h
      have hrest : ∀ e ∈ rest, e.2.2 ≠ [] :=
        fun e he => hne e (popMin_rest_mem heap _ rest hpop e he)
      by_cases hv : visited.any (fun q => q.1 == node) = true
      · rw [if_pos hv] at h
        exact ih rest visited hrest c p h
      · rw [if_neg hv] at h
        by_cases hg : (node == goal) = true
        · rw [if_pos hg] at h
          have hinj : d = c ∧ path = p := by cases h; exact ⟨rfl, rfl⟩
          rw [← hinj.2]
          exact hne _ (popMin_mem heap _ rest hpop)
        · rw [if_neg hg] at h
          refine ih _ _ ?_ c p h
          intro e he
          rw [List.mem_append] at he
          cases he with
          | inl h1 => exact hrest e h1
          | inr h1 =>
            rw [List.mem_map] at h1
            obtain ⟨q, -, hq⟩ := h1
            rw [← hq]
            simp

lemma spTotal_path_ne_nil (a b : String) (c : Nat) (p : List String)
    (h : spTotal a b = .ok (c, p)) : p ≠ [] := by
  have hsp : shortest_path a b = some (.ok (c, p)) := by
    rw [shortest_path_eq, h]
  unfold shortest_path at hsp
  by_cases hmem : a ∈ GRAPH.nodes ∧ b ∈ GRAPH.nodes
  · rw [if_pos hmem] at hsp
    refine dijkstraLoop_path_ne_nil b 64 [(0, a, [a])] [] ?_ c p hsp
    intro e he
    have : e = (0, a, [a]) := by simpa using he
    rw [this]
    simp
  · rw [if_neg hmem] at hsp
    cases hsp

lemma setRobot_names (rob : Robot) (l : List Robot) (nm : String) :
    (∃ x ∈ l, x.name = nm) → ∃ x ∈ setRobot rob l, x.name = nm := by
  rintro ⟨x, hx, hnm⟩
  by_cases heq : (x.name == rob.name) = true
  · refine ⟨rob, ?_, ?_⟩
    · unfold setRobot
      exact List.mem_map.mpr ⟨x, hx, by rw [if_pos heq]⟩
    · have : x.name = rob.name := by simpa using heq
      rw [← this, hnm]
  · refine ⟨x, ?_, hnm⟩
    unfold setRobot
    exact List.mem_map.mpr ⟨x, hx, by rw [if_neg heq]⟩

lemma updateRobotStatus_names (nm0 : String) (st : RobotStatus) (l : List Robot) (nm : String) :
    (∃ x ∈ l, x.name = nm) → ∃ x ∈ updateRobotStatus nm0 st l, x.name = nm := by
  rintro ⟨x, hx, hnm⟩
  by_cases heq : (x.name == nm0) = true
  · exact ⟨{ x with status := st },
      List.mem_map.mpr ⟨x, hx, by rw [if_pos heq]⟩, hnm⟩
  · exact ⟨x, List.mem_map.mpr ⟨x, hx, by rw [if_neg heq]⟩, hnm⟩

lemma updateOrderStatus_names (nm0 : String) (st : OrderStatus) (l : List Order) (nm : String) :
    (∃ x ∈ l, x.name = nm) → ∃ x ∈ updateOrderStatus nm0 st l, x.name = nm := by
  rintro ⟨x, hx, hnm⟩
  by_cases heq : (x.name == nm0) = true
  · exact ⟨{ x with status := st },
      List.mem_map.mpr ⟨x, hx, by rw [if_pos heq]⟩, hnm⟩
  · exact ⟨x, List.mem_map.mpr ⟨x, hx, by rw [if_neg heq]⟩, hnm⟩

lemma updateOrderStatus_mem (nm0 : String) (st : OrderStatus) (l : List Order) :
    ∀ o ∈ updateOrderStatus nm0 st l, ∃ o0 ∈ l, o0.name = o.name ∧
      (o.status = o0.status ∨ o.status = st) := by
  intro o ho
  obtain ⟨o0, ho0, heq⟩ := List.mem_map.mp ho
  by_cases hc : (o0.name == nm0) = true
  · rw [if_pos hc] at heq
    exact ⟨o0, ho0, by rw [← heq], Or.inr (by rw [← heq])⟩
  · rw [if_neg hc] at heq
    exact ⟨o0, ho0, by rw [← heq], Or.inl (by rw [← heq])⟩

lemma log_event_routes (t : String) (d : List (String × Val)) (s : SysState) :
    (log_event t d s).routes = s.routes := rfl

lemma log_event_robots (t : String) (d : List (String × Val)) (s : SysState) :
    (log_event t d s).robots = s.robots := rfl

lemma log_event_orders (t : String) (d : List (String × Val)) (s : SysState) :
    (log_event t d s).orders = s.orders := rfl

lemma resetRoute_load (r : Route)
    (h : r.remaining_weight = 0 ∧ r.next_index + 1 < r.path.length) :
    resetRoute r = { r with remaining_weight := startEdgeWeight r } := by
  unfold resetRoute; rw [if_pos h]

lemma resetRoute_skip (r : Route)
    (h : ¬(r.remaining_weight = 0 ∧ r.next_index + 1 < r.path.length)) :
    resetRoute r = r := by
  unfold resetRoute; rw [if_neg h]

lemma get?_of_lt (l : List String) (n : Nat) (h : n < l.length) :
    l.get? n = some (l.getD n "") := by
  rw [List.get?_eq_getElem?, List.getElem?_eq_getElem h, getD_of_lt l n "" h]

lemma advanceStep_go (rob : Robot) (r : Route) (s : SysState)
    (h : r.remaining_weight ≤ 0 ∧ r.next_index + 1 < r.path.length) :
    advanceStep rob r s =
      ({ rob with node := r.path.getD (r.next_index + 1) "" },
       { r with next_index := r.next_index + 1 },
       log_event "robot_arrived"
         [("robot", .str rob.name), ("at", .str (r.path.getD (r.next_index + 1) ""))] s) := by
  unfold advanceStep; rw [if_pos h]

lemma advanceStep_stay (rob : Robot) (r : Route) (s : SysState)
    (h : ¬(r.remaining_weight ≤ 0 ∧ r.next_index + 1 < r.path.length)) :
    advanceStep rob r s = (rob, r, s) := by
  unfold advanceStep; rw [if_neg h]

lemma moveRoute_pos (rob : Robot) (r : Route) (s : SysState) (toNode : String)
    (hpos : 0 < r.remaining_weight)
    (hget : r.path.get? (r.next_index + 1) = some toNode) :
    moveRoute rob r s =
      some (advanceStep rob { r with remaining_weight := r.remaining_weight - 1 }
        (log_event "robot_moving"
          [("robot", .str rob.name), ("from", .str rob.node), ("to", .str toNode),
           ("remaining_weight", .int (r.remaining_weight - 1))] s)) := by
  unfold moveRoute
  rw [if_pos hpos, hget]

lemma moveRoute_zero (rob : Robot) (r : Route) (s : SysState)
    (h : ¬ 0 < r.remaining_weight) :
    moveRoute rob r s = some (advanceStep rob r s) := by
  unfold moveRoute; rw [if_neg h]

lemma finishRoute_done (i : Nat) (rob3 : Robot) (r3 : Route) (s3 : SysState) (ord : Order)
    (h : r3.next_index + 1 = r3.path.length)
    (hfind : s3.orders.find? (fun o => o.name == r3.order) = some ord) :
    finishRoute i rob3 r3 s3 =
      some (log_event "order_completed"
        [("order", .str ord.name), ("robot", .str rob3.name), ("at", .str rob3.node)]
        { s3 with
          robots := setRobot { rob3 with status := RobotStatus.IDLE } s3.robots,
          orders := updateOrderStatus ord.name OrderStatus.DONE s3.orders,
          routes := (s3.routes.set i r3).erase r3 }) := by
  unfold finishRoute
  rw [if_pos h, hfind]

lemma finishRoute_cont (i : Nat) (rob3 : Robot) (r3 : Route) (s3 : SysState)
    (h : ¬(r3.next_index + 1 = r3.path.length)) :
    finishRoute i rob3 r3 s3 =
      some { s3 with robots := setRobot rob3 s3.robots, routes := s3.routes.set i r3 } := by
  unfold finishRoute; rw [if_neg h]

lemma tickBody_eq (s : SysState) (i : Nat) (r : Route) (rob rob3 : Robot)
    (r3 : Route) (s3 : SysState)
    (hfind : s.robots.find? (fun rb => rb.name == r.robot) = some rob)
    (hmove : moveRoute rob (resetRoute r) s = some (rob3, r3, s3)) :
    tickBody s i r = finishRoute i rob3 r3 s3 := by
  unfold tickBody
  rw [hfind]
  show (match moveRoute rob (resetRoute r) s with
    | none => none
    | some x => finishRoute i x.1 x.2.1 x.2.2) = finishRoute i rob3 r3 s3
  rw [hmove]

lemma setRobot_at (rob : Robot) (l : List Robot) :
    ∀ x ∈ setRobot rob l, x.name = rob.name → x = rob := by
  intro x hx hnm
  obtain ⟨x0, hx0, heq⟩ := List.mem_map.mp hx
  by_cases hc : (x0.name == rob.name) = true
  · rw [if_pos hc] at heq; exact heq.symm
  · rw [if_neg hc] at heq
    rw [heq] at hc
    exact absurd (by simp [hnm]) hc

lemma updateOrderStatus_at (nm0 : String) (st : OrderStatus) (l : List Order) :
    ∀ o ∈ updateOrderStatus nm0 st l, o.name = nm0 → o.status = st := by
  intro o ho hnm
  obtain ⟨o0, ho0, heq⟩ := List.mem_map.mp ho
  by_cases hc : (o0.name == nm0) = true
  · rw [if_pos hc] at heq; rw [← heq]
  · rw [if_neg hc] at heq
    rw [heq] at hc
    exact absurd (by simp [hnm]) hc
/-- What one loop iteration of main.tick does to a well-formed route whose
robot and order exist: it succeeds, and either completes the route (exactly
when its measure is 1) — removing it, idling the robot, finishing the order —
or keeps it with the measure decreased by exactly one. -/
lemma tickBody_spec (s : SysState) (i : Nat) (r : Route)
    (hwfr : RouteWF r)
    (hrob : ∃ rob ∈ s.robots, rob.name = r.robot)
    (hord : ∃ o2 ∈ s.orders, o2.name = r.order) :
    ∃ s2 r3, tickBody s i r = some s2 ∧
      RouteWF r3 ∧ r3.robot = r.robot ∧ r3.order = r.order ∧ r3.path = r.path ∧
      (∀ nm, (∃ rob ∈ s.robots, rob.name = nm) → ∃ rob ∈ s2.robots, rob.name = nm) ∧
      (∀ o2 ∈ s2.orders, ∃ o0 ∈ s.orders, o0.name = o2.name ∧
        (o2.status = o0.status ∨ o2.status = OrderStatus.DONE)) ∧
      (∀ nm, (∃ o2 ∈ s.orders, o2.name = nm) → ∃ o2 ∈ s2.orders, o2.name = nm) ∧
      ((routeMeasure r = 1 ∧
          s2.routes = (s.routes.set i r3).erase r3 ∧
          (∀ rob ∈ s2.robots, rob.name = r.robot → rob.status = RobotStatus.IDLE) ∧
          (∀ o2 ∈ s2.orders, o2.name = r.order → o2.status = OrderStatus.DONE)) ∨
        (2 ≤ routeMeasure r ∧ routeMeasure r3 = routeMeasure r - 1 ∧
          s2.routes = s.routes.set i r3 ∧ s2.orders = s.orders)) := by
  obtain ⟨robW, hrobW, hrobWn⟩ := hrob
  have hfindR : (s.robots.find? (fun rb => rb.name == r.robot)).isSome := by
    rw [List.find?_isSome]
    exact ⟨robW, hrobW, by simp [hrobWn]⟩
  obtain ⟨rob, hfind⟩ := Option.isSome_iff_exists.mp hfindR
  have hfname : rob.name = r.robot := by simpa using List.find?_some hfind
  obtain ⟨ordW, hordW, hordWn⟩ := hord
  have hfindO : (s.orders.find? (fun o2 => o2.name == r.order)).isSome := by
    rw [List.find?_isSome]
    exact ⟨ordW, hordW, by simp [hordWn]⟩
  obtain ⟨ord, hfindOrd⟩ := Option.isSome_iff_exists.mp hfindO
  have hordname : ord.name = r.order := by simpa using List.find?_some hfindOrd
  have hi : r.next_index < r.path.length := hwfr.1
  have hsig : 0 ≤ r.remaining_weight := hwfr.2.1
  by_cases hlast : r.next_index + 1 = r.path.length
  · -- cursor already at the last index: immediate completion
    have hnotlt : ¬ r.next_index + 1 < r.path.length := by omega
    have hzero : r.remaining_weight = 0 := by
      by_contra hne
      exact hnotlt (hwfr.2.2 (lt_of_le_of_ne hsig (Ne.symm hne)))
    have hmove : moveRoute rob (resetRoute r) s = some (rob, r, s) := by
      rw [resetRoute_skip r (fun hcon => hnotlt hcon.2),
        moveRoute_zero rob r s (by omega),
        advanceStep_stay rob r s (fun hcon => hnotlt hcon.2)]
    have hbody : tickBody s i r = finishRoute i rob r s :=
      tickBody_eq s i r rob rob r s hfind hmove
    have hfin := finishRoute_done i rob r s ord hlast hfindOrd
    have hmeas1 : routeMeasure r = 1 := by
      unfold routeMeasure
      rw [if_pos hlast]
    refine ⟨_, r, hbody.trans hfin, hwfr, rfl, rfl, rfl, ?_, ?_, ?_,
      Or.inl ⟨hmeas1, rfl, ?_, ?_⟩⟩
    · intro nm h
      exact setRobot_names _ _ nm h
    · exact updateOrderStatus_mem ord.name OrderStatus.DONE s.orders
    · intro nm h
      exact updateOrderStatus_names ord.name OrderStatus.DONE s.orders nm h
    · intro rob2 h2 hname2
      have h3 := setRobot_at { rob with status := RobotStatus.IDLE } s.robots rob2 h2
        (by rw [hname2]; exact hfname.symm)
      rw [h3]
    · intro o2 h2 hname2
      exact updateOrderStatus_at ord.name OrderStatus.DONE s.orders o2 h2
        (by rw [hname2, ← hordname])
  · -- cursor not at the last index: the route is traversing or starting an edge
    have hlt : r.next_index + 1 < r.path.length := by omega
    have hkey : ∃ q1 : Int, resetRoute r = { r with remaining_weight := q1 } ∧ 1 ≤ q1 ∧
        routeMeasure r = q1.toNat + pathCost (r.path.drop (r.next_index + 1)) := by
      by_cases hz : r.remaining_weight = 0
      · refine ⟨startEdgeWeight r, resetRoute_load r ⟨hz, hlt⟩, ?_, ?_⟩
        · unfold startEdgeWeight
          exact_mod_cast one_le_effWeight _ _
        · unfold routeMeasure
          rw [if_neg hlast, if_pos hz]
          unfold startEdgeWeight
          rw [Int.toNat_ofNat]
      · have hpos : 0 < r.remaining_weight := lt_of_le_of_ne hsig (Ne.symm hz)
        refine ⟨r.remaining_weight, ?_, hpos, ?_⟩
        · rw [resetRoute_skip r (fun hcon => hz hcon.1)]
        · unfold routeMeasure
          rw [if_neg hlast, if_neg hz]
    obtain ⟨q1, hreset, hq1, hmeas⟩ := hkey
    have hget2 : r.path.get? (r.next_index + 1) = some (r.path.getD (r.next_index + 1) "") :=
      get?_of_lt r.path (r.next_index + 1) hlt
    have hmv : moveRoute rob (resetRoute r) s =
        some (advanceStep rob { r with remaining_weight := q1 - 1 }
          (log_event "robot_moving"
            [("robot", .str rob.name), ("from", .str rob.node),
             ("to", .str (r.path.getD (r.next_index + 1) "")),
             ("remaining_weight", .int (q1 - 1))] s)) := by
      rw [hreset]
      exact moveRoute_pos rob { r with remaining_weight := q1 } s
        (r.path.getD (r.next_index + 1) "") (show (0 : Int) < q1 by omega) hget2
    by_cases hone : q1 = 1
    · -- the edge finishes this tick: the cursor advances
      have hadv : advanceStep rob { r with remaining_weight := q1 - 1 }
          (log_event "robot_moving"
            [("robot", .str rob.name), ("from", .str rob.node),
             ("to", .str (r.path.getD (r.next_index + 1) "")),
             ("remaining_weight", .int (q1 - 1))] s) =
          ({ rob with node := r.path.getD (r.next_index + 1) "" },
           { r with remaining_weight := q1 - 1, next_index := r.next_index + 1 },
           log_event "robot_arrived"
             [("robot", .str rob.name), ("at", .str (r.path.getD (r.next_index + 1) ""))]
             (log_event "robot_moving"
               [("robot", .str rob.name), ("from", .str rob.node),
                ("to", .str (r.path.getD (r.next_index + 1) "")),
                ("remaining_weight", .int (q1 - 1))] s)) :=
        advanceStep_go rob _ _ ⟨show (q1 - 1 : Int) ≤ 0 by omega, hlt⟩
      have hmove2 := hmv.trans (congrArg some hadv)
      have hbody := tickBody_eq s i r rob _ _ _ hfind hmove2
      by_cases hend : r.next_index + 1 + 1 = r.path.length
      · -- the new cursor position is the last index: completion
        have htaillen : (r.path.drop (r.next_index + 1)).length ≤ 1 := by
          rw [List.length_drop]
          omega
        have hmeas1 : routeMeasure r = 1 := by
          rw [hmeas, pathCost_short _ htaillen]
          omega
        have hfin := finishRoute_done i { rob with node := r.path.getD (r.next_index + 1) "" }
          { r with remaining_weight := q1 - 1, next_index := r.next_index + 1 }
          (log_event "robot_arrived"
             [("robot", .str rob.name), ("at", .str (r.path.getD (r.next_index + 1) ""))]
             (log_event "robot_moving"
               [("robot", .str rob.name), ("from", .str rob.node),
                ("to", .str (r.path.getD (r.next_index + 1) "")),
                ("remaining_weight", .int (q1 - 1))] s))
          ord hend hfindOrd
        refine ⟨_, { r with remaining_weight := q1 - 1, next_index := r.next_index + 1 },
          hbody.trans hfin, ⟨?_, ?_, ?_⟩,
          rfl, rfl, rfl, ?_, ?_, ?_, Or.inl ⟨hmeas1, rfl, ?_, ?_⟩⟩
        · show r.next_index + 1 < r.path.length
          omega
        · show (0 : Int) ≤ q1 - 1
          omega
        · intro hcon
          have hcon2 : (0 : Int) < q1 - 1 := hcon
          omega
        · intro nm h
          exact setRobot_names _ _ nm h
        · exact updateOrderStatus_mem ord.name OrderStatus.DONE _
        · intro nm h
          exact updateOrderStatus_names ord.name OrderStatus.DONE _ nm h
        · intro rob2 h2 hname2
          have h3 := setRobot_at _ _ rob2 h2 (by rw [hname2]; exact hfname.symm)
          rw [h3]
        · intro o2 h2 hname2
          exact updateOrderStatus_at ord.name OrderStatus.DONE _ o2 h2
            (by rw [hname2, ← hordname])
      · -- more edges remain: the route is kept with the cursor advanced
        have hend2 : r.next_index + 1 + 1 < r.path.length := by omega
        have hfin := finishRoute_cont i { rob with node := r.path.getD (r.next_index + 1) "" }
          { r with remaining_weight := q1 - 1, next_index := r.next_index + 1 }
          (log_event "robot_arrived"
             [("robot", .str rob.name), ("at", .str (r.path.getD (r.next_index + 1) ""))]
             (log_event "robot_moving"
               [("robot", .str rob.name), ("from", .str rob.node),
                ("to", .str (r.path.getD (r.next_index + 1) "")),
                ("remaining_weight", .int (q1 - 1))] s))
          hend
        have hsplit := pathCost_drop r.path (r.next_index + 1) hend2
        have hmeasr3 : routeMeasure
            { r with remaining_weight := q1 - 1, next_index := r.next_index + 1 } =
            routeMeasure r - 1 := by
          have hL : routeMeasure
              { r with remaining_weight := q1 - 1, next_index := r.next_index + 1 } =
              effWeight (r.path.getD (r.next_index + 1) "")
                (r.path.getD (r.next_index + 1 + 1) "") +
              pathCost (r.path.drop (r.next_index + 1 + 1)) := by
            unfold routeMeasure
            dsimp only
            rw [if_neg hend, if_pos (show (q1 - 1 : Int) = 0 by omega)]
          rw [hL, hmeas, hsplit]
          omega
        have hmeas2 : 2 ≤ routeMeasure r := by
          rw [hmeas, hsplit]
          have := one_le_effWeight (r.path.getD (r.next_index + 1) "")
            (r.path.getD (r.next_index + 1 + 1) "")
          omega
        refine ⟨_, { r with remaining_weight := q1 - 1, next_index := r.next_index + 1 },
          hbody.trans hfin, ⟨?_, ?_, ?_⟩,
          rfl, rfl, rfl, ?_, ?_, ?_, Or.inr ⟨hmeas2, hmeasr3, rfl, rfl⟩⟩
        · show r.next_index + 1 < r.path.length
          omega
        · show (0 : Int) ≤ q1 - 1
          omega
        · intro hcon
          show r.next_index + 1 + 1 < r.path.length
          omega
        · intro nm h
          exact setRobot_names _ _ nm h
        · intro o2 h2
          exact ⟨o2, h2, rfl, Or.inl rfl⟩
        · intro nm h
          exact h
    · -- the edge continues: remaining weight just decreases
      have htwo : 2 ≤ q1 := by omega
      have hadv : advanceStep rob { r with remaining_weight := q1 - 1 }
          (log_event "robot_moving"
            [("robot", .str rob.name), ("from", .str rob.node),
             ("to", .str (r.path.getD (r.next_index + 1) "")),
             ("remaining_weight", .int (q1 - 1))] s) =
          (rob, { r with remaining_weight := q1 - 1 },
           log_event "robot_moving"
             [("robot", .str rob.name), ("from", .str rob.node),
              ("to", .str (r.path.getD (r.next_index + 1) "")),
              ("remaining_weight", .int (q1 - 1))] s) :=
        advanceStep_stay rob _ _ (fun hcon => by
          have hcon2 : (q1 - 1 : Int) ≤ 0 := hcon.1
          omega)
      have hmove2 := hmv.trans (congrArg some hadv)
      have hbody := tickBody_eq s i r rob _ _ _ hfind hmove2
      have hfin := finishRoute_cont i rob { r with remaining_weight := q1 - 1 }
        (log_event "robot_moving"
          [("robot", .str rob.name), ("from", .str rob.node),
           ("to", .str (r.path.getD (r.next_index + 1) "")),
           ("remaining_weight", .int (q1 - 1))] s)
        hlast
      have hmeasr3 : routeMeasure { r with remaining_weight := q1 - 1 } =
          routeMeasure r - 1 := by
        have hL : routeMeasure { r with remaining_weight := q1 - 1 } =
            (q1 - 1).toNat + pathCost (r.path.drop (r.next_index + 1)) := by
          unfold routeMeasure
          dsimp only
          rw [if_neg hlast, if_neg (show ¬ (q1 - 1 : Int) = 0 by omega)]
        rw [hL, hmeas]
        omega
      have hmeas2 : 2 ≤ routeMeasure r := by
        rw [hmeas]
        omega
      refine ⟨_, { r with remaining_weight := q1 - 1 },
        hbody.trans hfin, ⟨?_, ?_, ?_⟩,
        rfl, rfl, rfl, ?_, ?_, ?_, Or.inr ⟨hmeas2, hmeasr3, rfl, rfl⟩⟩
      · show r.next_index < r.path.length
        exact hi
      · show (0 : Int) ≤ q1 - 1
        omega
      · intro hcon
        show r.next_index + 1 < r.path.length
        exact hlt
      · intro nm h
        exact setRobot_names _ _ nm h
      · intro o2 h2
        exact ⟨o2, h2, rfl, Or.inl rfl⟩
      · intro nm h
        exact h

lemma assignFixed_stop (o : Order) (s : SysState) (w : AssignStop)
    (h : assign_plan o s = .stop w) : assignFixed o s = (none, s) := by
  unfold assignFixed; rw [h]

lemma assignFixed_go (o : Order) (s : SysState) (robotName : String) (fullPath : List String)
    (h : assign_plan o s = .plan robotName fullPath) :
    assignFixed o s =
      (some ⟨robotName, 0, o.name, fullPath, 0⟩,
       { s with
         robots := updateRobotStatus robotName RobotStatus.EXECUTING s.robots,
         orders := updateOrderStatus o.name OrderStatus.IN_PROGRESS s.orders,
         routes := s.routes ++ [⟨robotName, 0, o.name, fullPath, 0⟩] }) := by
  unfold assignFixed; rw [h]

lemma assign_plan_inv (o : Order) (s : SysState) (robotName : String) (fullPath : List String)
    (h : assign_plan o s = .plan robotName fullPath) :
    ∃ best d p1 c2 p2,
      selectFrom o.source none (s.robots.filter (fun rb => rb.status == RobotStatus.IDLE)) =
        some (best, d, p1) ∧
      spTotal o.source o.target = .ok (c2, p2) ∧
      robotName = best.name ∧ fullPath = p1 ++ p2.tail := by
  unfold assign_plan at h
  by_cases hidle : (s.robots.filter (fun rb => rb.status == RobotStatus.IDLE)).isEmpty = true
  · rw [if_pos hidle] at h; cases h
  · rw [if_neg hidle] at h
    cases hsel : selectFrom o.source none
        (s.robots.filter (fun rb => rb.status == RobotStatus.IDLE)) with
    | none => simp only [hsel] at h; cases h
    | some v =>
      obtain ⟨best, d, p1⟩ := v
      simp only [hsel] at h
      cases hsp2 : spTotal o.source o.target with
      | error e => simp only [hsp2] at h; cases h
      | ok v2 =>
        obtain ⟨c2, p2⟩ := v2
        simp only [hsp2] at h
        cases h
        exact ⟨best, d, p1, c2, p2, rfl, rfl, rfl, rfl⟩

/-- The intended assignment preserves state well-formedness, provided the
assigned order is itself stored. -/
lemma assignFixed_wf (o : Order) (s : SysState) (hwf : StateWF s)
    (ho : ∃ o0 ∈ s.orders, o0.name = o.name) :
    StateWF (assignFixed o s).2 ∧
    (∀ nm, (∃ rob ∈ s.robots, rob.name = nm) →
      ∃ rob ∈ (assignFixed o s).2.robots, rob.name = nm) ∧
    (∀ nm, (∃ o2 ∈ s.orders, o2.name = nm) →
      ∃ o2 ∈ (assignFixed o s).2.orders, o2.name = nm) ∧
    (∀ o2 ∈ (assignFixed o s).2.orders, ∃ o0 ∈ s.orders, o0.name = o2.name ∧
      (o2.status = o0.status ∨ o2.status = OrderStatus.IN_PROGRESS)) := by
  cases hplan : assign_plan o s with
  | stop w =>
    rw [assignFixed_stop o s w hplan]
    exact ⟨hwf, fun nm h => h, fun nm h => h, fun o2 h2 => ⟨o2, h2, rfl, Or.inl rfl⟩⟩
  | plan robotName fullPath =>
    obtain ⟨best, d, p1, c2, p2, hsel, hsp2, hrn, hfp⟩ :=
      assign_plan_inv o s robotName fullPath hplan
    obtain ⟨hprov, -, -⟩ := selectFrom_sound o.source _ none best d p1 hsel
    have hbest : best ∈ s.robots ∧ spTotal best.node o.source = .ok (d, p1) := by
      cases hprov with
      | inl hcon => cases hcon
      | inr h1 => exact ⟨(List.mem_filter.mp h1.1).1, h1.2⟩
    have hp1ne : p1 ≠ [] := spTotal_path_ne_nil best.node o.source d p1 hbest.2
    have hfpne : 0 < fullPath.length := by
      rw [hfp, List.length_append]
      cases p1 with
      | nil => exact absurd rfl hp1ne
      | cons a t => simp
    rw [assignFixed_go o s robotName fullPath hplan]
    refine ⟨⟨?_, ?_, ?_⟩, ?_, ?_, ?_⟩
    · intro r2 hr2
      rw [List.mem_append] at hr2
      cases hr2 with
      | inl h2 => exact hwf.1 r2 h2
      | inr h2 =>
        have h3 : r2 = ⟨robotName, 0, o.name, fullPath, 0⟩ := by simpa using h2
        rw [h3]
        exact ⟨hfpne, le_refl 0, fun hcon => absurd (show (0 : Int) < 0 from hcon) (lt_irrefl 0)⟩
    · intro r2 hr2
      rw [List.mem_append] at hr2
      cases hr2 with
      | inl h2 =>
        exact updateRobotStatus_names robotName RobotStatus.EXECUTING s.robots r2.robot
          (hwf.2.1 r2 h2)
      | inr h2 =>
        have h3 : r2 = ⟨robotName, 0, o.name, fullPath, 0⟩ := by simpa using h2
        rw [h3]
        refine updateRobotStatus_names robotName RobotStatus.EXECUTING s.robots _ ?_
        exact ⟨best, hbest.1, hrn.symm⟩
    · intro r2 hr2
      rw [List.mem_append] at hr2
      cases hr2 with
      | inl h2 =>
        exact updateOrderStatus_names o.name OrderStatus.IN_PROGRESS s.orders r2.order
          (hwf.2.2 r2 h2)
      | inr h2 =>
        have h3 : r2 = ⟨robotName, 0, o.name, fullPath, 0⟩ := by simpa using h2
        rw [h3]
        exact updateOrderStatus_names o.name OrderStatus.IN_PROGRESS s.orders _ ho
    · intro nm h
      exact updateRobotStatus_names robotName RobotStatus.EXECUTING s.robots nm h
    · intro nm h
      exact updateOrderStatus_names o.name OrderStatus.IN_PROGRESS s.orders nm h
    · exact updateOrderStatus_mem o.name OrderStatus.IN_PROGRESS s.orders

lemma retryLoop_succ (fuel : Nat) (s : SysState) (i : Nat) :
    retryLoop (fuel + 1) s i =
      match s.orders.get? i with
      | none => s
      | some o =>
        if o.status = OrderStatus.NEW ∨ o.status = OrderStatus.FAILED then
          retryLoop fuel (assignFixed o s).2 (i + 1)
        else retryLoop fuel s (i + 1) := rfl

lemma tickLoop_succ (fuel : Nat) (s : SysState) (i : Nat) :
    tickLoop (fuel + 1) s i =
      match s.routes.get? i with
      | none => some s
      | some r =>
        match tickBody s i r with
        | none => none
        | some s2 => tickLoop fuel s2 (i + 1) := rfl

lemma retryLoop_wf : ∀ (fuel : Nat) (s : SysState) (i : Nat),
    StateWF s → StateWF (retryLoop fuel s i) := by
  intro fuel
  induction fuel with
  | zero => intro s i h; exact h
  | succ fuel ih =>
    intro s i h
    rw [retryLoop_succ]
    cases hget : s.orders.get? i with
    | none => exact h
    | some o =>
      show StateWF (if o.status = OrderStatus.NEW ∨ o.status = OrderStatus.FAILED then
        retryLoop fuel (assignFixed o s).2 (i + 1) else retryLoop fuel s (i + 1))
      by_cases hpend : o.status = OrderStatus.NEW ∨ o.status = OrderStatus.FAILED
      · rw [if_pos hpend]
        refine ih _ _ ?_
        exact (assignFixed_wf o s h ⟨o, List.get?_mem hget, rfl⟩).1
      · rw [if_neg hpend]
        exact ih _ _ h

lemma tickLoop_wf : ∀ (fuel : Nat) (s : SysState) (i : Nat),
    StateWF s → ∃ s2, tickLoop fuel s i = some s2 ∧ StateWF s2 := by
  intro fuel
  induction fuel with
  | zero => intro s i h; exact ⟨s, rfl, h⟩
  | succ fuel ih =>
    intro s i h
    rw [tickLoop_succ]
    cases hget : s.routes.get? i with
    | none => exact ⟨s, rfl, h⟩
    | some r =>
      have hrmem : r ∈ s.routes := List.get?_mem hget
      obtain ⟨s2, r3, heq, hwfr3, hrr, hro, hrp, hpresR, hordstat, hpresO, hbranch⟩ :=
        tickBody_spec s i r (h.1 r hrmem) (h.2.1 r hrmem) (h.2.2 r hrmem)
      have hwf2 : StateWF s2 := by
        have hroutes2 : ∀ r2 ∈ s2.routes, r2 = r3 ∨ r2 ∈ s.routes := by
          intro r2 hr2
          cases hbranch with
          | inl hb =>
            rw [hb.2.1] at hr2
            cases List.mem_or_eq_of_mem_set (List.mem_of_mem_erase hr2) with
            | inl h2 => exact Or.inr h2
            | inr h2 => exact Or.inl h2
          | inr hb =>
            rw [hb.2.2.1] at hr2
            cases List.mem_or_eq_of_mem_set hr2 with
            | inl h2 => exact Or.inr h2
            | inr h2 => exact Or.inl h2
        refine ⟨?_, ?_, ?_⟩
        · intro r2 hr2
          cases hroutes2 r2 hr2 with
          | inl h2 => rw [h2]; exact hwfr3
          | inr h2 => exact h.1 r2 h2
        · intro r2 hr2
          cases hroutes2 r2 hr2 with
          | inl h2 =>
            rw [h2, hrr]
            exact hpresR r.robot (h.2.1 r hrmem)
          | inr h2 => exact hpresR r2.robot (h.2.1 r2 h2)
        · intro r2 hr2
          cases hroutes2 r2 hr2 with
          | inl h2 =>
            rw [h2, hro]
            exact hpresO r.order (h.2.2 r hrmem)
          | inr h2 => exact hpresO r2.order (h.2.2 r2 h2)
      obtain ⟨s3, heq3, hwf3⟩ := ih s2 (i + 1) hwf2
      refine ⟨s3, ?_, hwf3⟩
      show (match tickBody s i r with
        | none => none
        | some s4 => tickLoop fuel s4 (i + 1)) = some s3
      rw [heq]
      exact heq3

lemma tick_wf (s : SysState) (hwf : StateWF s) : ∃ s2, tick s = some s2 ∧ StateWF s2 := by
  obtain ⟨s1, h1, hwf1⟩ := tickLoop_wf s.routes.length s 0 hwf
  have hwf2 := retryLoop_wf s1.orders.length s1 0 hwf1
  refine ⟨log_event "tick_processed" [] (retryLoop s1.orders.length s1 0), ?_, hwf2⟩
  unfold tick
  rw [h1]

lemma reachable_wf : ∀ s, Reachable s → StateWF s := by
  intro s h
  induction h with
  | seed =>
    refine ⟨?_, ?_, ?_⟩ <;> intro r hr <;> simp [initState] at hr
  | tick_step hre heq ih =>
    rename_i s1 s2
    obtain ⟨s3, heq3, hwf3⟩ := tick_wf s1 ih
    rw [heq] at heq3
    rw [Option.some_inj.mp heq3]
    exact hwf3
  | order_step name source target hre heq ih =>
    rename_i s1 s2
    unfold add_order at heq
    by_cases hval : source ∈ GRAPH.nodes ∧ target ∈ GRAPH.nodes
    · rw [if_pos hval] at heq
      by_cases hdup : s1.orders.any (fun o2 => o2.name == name) = true
      · rw [if_pos hdup] at heq; cases heq
      · rw [if_neg hdup] at heq
        have hs2 : s2 = log_event "order_created"
            [("order", .str name), ("source", .str source), ("target", .str target)]
            (assignFixed ⟨name, source, target, OrderStatus.NEW⟩
              { s1 with orders := s1.orders ++ [⟨name, source, target, OrderStatus.NEW⟩] }).2 :=
          (Option.some_inj.mp heq).symm
        have hwf1 : StateWF { s1 with orders := s1.orders ++ [⟨name, source, target, OrderStatus.NEW⟩] } := by
          refine ⟨ih.1, ih.2.1, ?_⟩
          intro r2 hr2
          obtain ⟨o2, ho2, hn2⟩ := ih.2.2 r2 hr2
          exact ⟨o2, List.mem_append_left _ ho2, hn2⟩
        have hwfA := (assignFixed_wf ⟨name, source, target, OrderStatus.NEW⟩
          { s1 with orders := s1.orders ++ [⟨name, source, target, OrderStatus.NEW⟩] } hwf1
          ⟨⟨name, source, target, OrderStatus.NEW⟩,
            List.mem_append_right _ (List.mem_singleton.mpr rfl), rfl⟩).1
        rw [hs2]
        exact hwfA
    · rw [if_neg hval] at heq; cases heq

/-- n successive calls of the /tick endpoint. -/
def tickN : Nat → SysState → Option SysState
  | 0, s => some s
  | n + 1, s =>
    match tick s with
    | none => none
    | some s2 => tickN n s2

lemma retryLoop_no_pend : ∀ (fuel : Nat) (s : SysState) (i : Nat),
    (∀ o2 ∈ s.orders, o2.status ≠ OrderStatus.NEW ∧ o2.status ≠ OrderStatus.FAILED) →
    retryLoop fuel s i = s := by
  intro fuel
  induction fuel with
  | zero => intro s i h; rfl
  | succ fuel ih =>
    intro s i h
    rw [retryLoop_succ]
    cases hget : s.orders.get? i with
    | none => rfl
    | some o =>
      have hmem := List.get?_mem hget
      show (if o.status = OrderStatus.NEW ∨ o.status = OrderStatus.FAILED then
        retryLoop fuel (assignFixed o s).2 (i + 1) else retryLoop fuel s (i + 1)) = s
      rw [if_neg (by
        intro hcon
        cases hcon with
        | inl h2 => exact (h o hmem).1 h2
        | inr h2 => exact (h o hmem).2 h2)]
      exact ih s (i + 1) h

/-- One tick on a state holding exactly one route, with nothing pending to
re-assign: the tick succeeds and either completes the route (measure 1) or
keeps it with the measure one smaller. -/
lemma tick_single (s : SysState) (r : Route)
    (hroutes : s.routes = [r]) (hwfr : RouteWF r)
    (hrob : ∃ rob ∈ s.robots, rob.name = r.robot)
    (hord : ∃ o2 ∈ s.orders, o2.name = r.order)
    (hnopend : ∀ o2 ∈ s.orders, o2.status ≠ OrderStatus.NEW ∧ o2.status ≠ OrderStatus.FAILED) :
    ∃ s3, tick s = some s3 ∧
      (∀ o2 ∈ s3.orders, o2.status ≠ OrderStatus.NEW ∧ o2.status ≠ OrderStatus.FAILED) ∧
      ((routeMeasure r = 1 ∧ s3.routes = [] ∧
          (∀ rob ∈ s3.robots, rob.name = r.robot → rob.status = RobotStatus.IDLE) ∧
          (∀ o2 ∈ s3.orders, o2.name = r.order → o2.status = OrderStatus.DONE)) ∨
        (2 ≤ routeMeasure r ∧ ∃ r3, s3.routes = [r3] ∧ RouteWF r3 ∧
          routeMeasure r3 = routeMeasure r - 1 ∧ r3.robot = r.robot ∧ r3.order = r.order ∧
          (∃ rob ∈ s3.robots, rob.name = r.robot) ∧
          (∃ o2 ∈ s3.orders, o2.name = r.order))) := by
  obtain ⟨s2, r3, heq, hwfr3, hrr, hro, hrp, hpresR, hordstat, hpresO, hbranch⟩ :=
    tickBody_spec s 0 r hwfr hrob hord
  have hnopend2 : ∀ o2 ∈ s2.orders,
      o2.status ≠ OrderStatus.NEW ∧ o2.status ≠ OrderStatus.FAILED := by
    intro o2 h2
    obtain ⟨o0, h0, -, hst⟩ := hordstat o2 h2
    cases hst with
    | inl h3 => rw [h3]; exact hnopend o0 h0
    | inr h3 =>
      rw [h3]
      exact ⟨by decide, by decide⟩
  have hlen : s.routes.length = 1 := by rw [hroutes]; rfl
  have hget0 : s.routes.get? 0 = some r := by rw [hroutes]; rfl
  have hloop : tickLoop s.routes.length s 0 = some s2 := by
    rw [hlen]
    show tickLoop (0 + 1) s 0 = some s2
    rw [tickLoop_succ, hget0]
    show (match tickBody s 0 r with
      | none => none
      | some s4 => tickLoop 0 s4 1) = some s2
    rw [heq]
    rfl
  have htick : tick s = some (log_event "tick_processed" [] s2) := by
    unfold tick
    rw [hloop]
    show some (log_event "tick_processed" [] (retryLoop s2.orders.length s2 0)) =
      some (log_event "tick_processed" [] s2)
    rw [retryLoop_no_pend s2.orders.length s2 0 hnopend2]
  refine ⟨log_event "tick_processed" [] s2, htick, hnopend2, ?_⟩
  cases hbranch with
  | inl hb =>
    refine Or.inl ⟨hb.1, ?_, hb.2.2.1, hb.2.2.2⟩
    show s2.routes = []
    rw [hb.2.1, hroutes]
    have hset : ([r].set 0 r3) = [r3] := rfl
    rw [hset]
    exact List.erase_cons_head r3 []
  | inr hb =>
    refine Or.inr ⟨hb.1, r3, ?_, hwfr3, hb.2.1, hrr, hro, ?_, ?_⟩
    · show s2.routes = [r3]
      rw [hb.2.2.1, hroutes]
      rfl
    · exact hpresR r.robot hrob
    · exact hpresO r.order hord

/-- Repeated ticks complete a sole well-formed route in exactly its measure. -/
lemma tick_single_progress : ∀ (M : Nat) (s : SysState) (r : Route),
    s.routes = [r] → RouteWF r →
    (∃ rob ∈ s.robots, rob.name = r.robot) →
    (∃ o2 ∈ s.orders, o2.name = r.order) →
    (∀ o2 ∈ s.orders, o2.status ≠ OrderStatus.NEW ∧ o2.status ≠ OrderStatus.FAILED) →
    routeMeasure r = M →
    ∃ s2, tickN M s = some s2 ∧ s2.routes = [] ∧
      (∀ rob ∈ s2.robots, rob.name = r.robot → rob.status = RobotStatus.IDLE) ∧
      (∀ o2 ∈ s2.orders, o2.name = r.order → o2.status = OrderStatus.DONE) := by
  intro M
  induction M with
  | zero =>
    intro s r h1 h2 h3 h4 h5 hM
    exfalso
    unfold routeMeasure at hM
    by_cases hl : r.next_index + 1 = r.path.length
    · rw [if_pos hl] at hM; cases hM
    · rw [if_neg hl] at hM
      by_cases hz : r.remaining_weight = 0
      · rw [if_pos hz] at hM
        have := one_le_effWeight (r.path.getD r.next_index "") (r.path.getD (r.next_index + 1) "")
        omega
      · rw [if_neg hz] at hM
        have hpos : 0 < r.remaining_weight := lt_of_le_of_ne h2.2.1 (Ne.symm hz)
        omega
  | succ M ih =>
    intro s r h1 h2 h3 h4 h5 hM
    obtain ⟨s3, htick, hnp3, hbr⟩ := tick_single s r h1 h2 h3 h4 h5
    cases hbr with
    | inl hb =>
      have hM0 : M = 0 := by
        have := hb.1
        omega
      subst hM0
      refine ⟨s3, ?_, hb.2.1, hb.2.2.1, hb.2.2.2⟩
      show (match tick s with
        | none => none
        | some s4 => tickN 0 s4) = some s3
      rw [htick]
      rfl
    | inr hb =>
      obtain ⟨hm2, r3, hroutes3, hwf3, hmr3, hrr3, hro3, hrob3, hord3⟩ := hb
      have hM2 : routeMeasure r3 = M := by omega
      obtain ⟨s4, htickN, hfinr, hfinrob, hfinord⟩ := ih s3 r3 hroutes3 hwf3
        (by rw [hrr3]; exact hrob3) (by rw [hro3]; exact hord3) hnp3 hM2
      refine ⟨s4, ?_, hfinr, ?_, ?_⟩
      · show (match tick s with
          | none => none
          | some s5 => tickN M s5) = some s4
        rw [htick]
        exact htickN
      · intro rob hrobm hname
        exact hfinrob rob hrobm (by rw [hrr3]; exact hname)
      · intro o2 ho2m hname
        exact hfinord o2 ho2m (by rw [hro3]; exact hname)

/-- One engine step, used only to build concrete reachable sample states:
apply tick and keep the result (tick succeeds on every state used here). -/
def stepState (s : SysState) : SysState := (tick s).getD s

/-- The state after one tick from the seeded start: the retry loop has
assigned seed order O-1001 to R1 with route A-B-C-D. -/
def reach1 : SysState := stepState initState

/-- Two ticks from the seeded start: R1 has advanced to B (edge A-B has
weight 1). -/
def reach2 : SysState := stepState reach1

/-- Three ticks from the seeded start: R1 is mid-way along the weight-2 edge
B-C, its route showing next_index 1 and remaining_weight 1. -/
def reach3 : SysState := stepState reach2

lemma reachable_reach1 : Reachable reach1 :=
  Reachable.tick_step Reachable.seed (by rfl)

lemma reachable_reach2 : Reachable reach2 :=
  Reachable.tick_step reachable_reach1 (by rfl)

lemma reachable_reach3 : Reachable reach3 :=
  Reachable.tick_step reachable_reach2 (by rfl)

/-- C7 (counterexample to the literal bound): an order whose source equals its
target yields a single-node route whose total path edge weight is W = 0, yet
after W = 0 tick calls the order is still IN_PROGRESS, not DONE — completing
even a zero-weight route takes one tick, so "within W ticks" fails at W = 0. -/
theorem C7_zero_weight_counterexample :
    assignFixed ⟨"OZ", "B", "B", .NEW⟩
        { orders := [⟨"OZ", "B", "B", .NEW⟩],
          robots := [⟨"R9", .IDLE, "B"⟩], routes := [], events := [] } =
      (some ⟨"R9", 0, "OZ", ["B"], 0⟩,
       { orders := [⟨"OZ", "B", "B", .IN_PROGRESS⟩],
         robots := [⟨"R9", .EXECUTING, "B"⟩],
         routes := [⟨"R9", 0, "OZ", ["B"], 0⟩], events := [] }) ∧
    pathCost ["B"] = 0 ∧
    tickN (pathCost ["B"])
        { orders := [⟨"OZ", "B", "B", .IN_PROGRESS⟩],
          robots := [⟨"R9", .EXECUTING, "B"⟩],
          routes := [⟨"R9", 0, "OZ", ["B"], 0⟩], events := [] } =
      some { orders := [⟨"OZ", "B", "B", .IN_PROGRESS⟩],
             robots := [⟨"R9", .EXECUTING, "B"⟩],
             routes := [⟨"R9", 0, "OZ", ["B"], 0⟩], events := [] } ∧
    OrderStatus.IN_PROGRESS ≠ OrderStatus.DONE := by
  exact ⟨rfl, rfl, rfl, by decide⟩

/-- C7 (amended): for a freshly assigned route that is the only stored route,
whose order is stored, and with no order left NEW or FAILED, max(W, 1) tick
calls — W being the total edge weight of the route's path — drive the bound
order to DONE, the bound vehicle back to IDLE, and remove the route.  The max
with 1 is needed because a single-node route has W = 0 yet still takes one
tick to complete; assignFixed is the intended assignment, the literal one
raising before it can store the route (see C2). -/
theorem C7_completion_bound_amended (o : Order) (s0 s1 : SysState) (r : Route)
    (hassign : assignFixed o s0 = (some r, s1))
    (hroutes : s1.routes = [r])
    (hord : ∃ o2 ∈ s1.orders, o2.name = r.order)
    (hnopend : ∀ o2 ∈ s1.orders, o2.status ≠ OrderStatus.NEW ∧ o2.status ≠ OrderStatus.FAILED) :
    ∃ s2, tickN (max (pathCost r.path) 1) s1 = some s2 ∧ s2.routes = [] ∧
      (∀ rob ∈ s2.robots, rob.name = r.robot → rob.status = RobotStatus.IDLE) ∧
      (∀ o2 ∈ s2.orders, o2.name = r.order → o2.status = OrderStatus.DONE) := by
  cases hplan : assign_plan o s0 with
  | stop w =>
    rw [assignFixed_stop o s0 w hplan] at hassign
    have hcon : (none : Option Route) = some r := congrArg Prod.fst hassign
    cases hcon
  | plan robotName fullPath =>
    rw [assignFixed_go o s0 robotName fullPath hplan] at hassign
    have hr : (⟨robotName, 0, o.name, fullPath, 0⟩ : Route) = r :=
      Option.some_inj.mp (congrArg Prod.fst hassign)
    have hs1 : ({ s0 with
        robots := updateRobotStatus robotName RobotStatus.EXECUTING s0.robots,
        orders := updateOrderStatus o.name OrderStatus.IN_PROGRESS s0.orders,
        routes := s0.routes ++ [⟨robotName, 0, o.name, fullPath, 0⟩] } : SysState) = s1 :=
      congrArg Prod.snd hassign
    obtain ⟨best, d, p1, c2, p2, hsel, hsp2, hrn, hfp⟩ :=
      assign_plan_inv o s0 robotName fullPath hplan
    obtain ⟨hprov, -, -⟩ := selectFrom_sound o.source _ none best d p1 hsel
    have hbest : best ∈ s0.robots ∧ spTotal best.node o.source = .ok (d, p1) := by
      cases hprov with
      | inl hcon => cases hcon
      | inr h1 => exact ⟨(List.mem_filter.mp h1.1).1, h1.2⟩
    have hp1ne : p1 ≠ [] := spTotal_path_ne_nil best.node o.source d p1 hbest.2
    have hlenpos : 0 < fullPath.length := by
      rw [hfp, List.length_append]
      cases p1 with
      | nil => exact absurd rfl hp1ne
      | cons a t => simp
    subst hr
    subst hs1
    have hwf : RouteWF (⟨robotName, 0, o.name, fullPath, 0⟩ : Route) :=
      ⟨hlenpos, le_refl 0, fun hcon => absurd (show (0 : Int) < 0 from hcon) (lt_irrefl 0)⟩
    have hrob : ∃ rob ∈ updateRobotStatus robotName RobotStatus.EXECUTING s0.robots,
        rob.name = robotName :=
      updateRobotStatus_names robotName RobotStatus.EXECUTING s0.robots robotName
        ⟨best, hbest.1, hrn.symm⟩
    have hmeasure : routeMeasure (⟨robotName, 0, o.name, fullPath, 0⟩ : Route) =
        max (pathCost fullPath) 1 := by
      show (if 0 + 1 = fullPath.length then 1
        else effWeight (fullPath.getD 0 "") (fullPath.getD (0 + 1) "") +
          pathCost (fullPath.drop (0 + 1))) = max (pathCost fullPath) 1
      by_cases h1 : 0 + 1 = fullPath.length
      · rw [if_pos h1]
        have hps := pathCost_short fullPath (by omega)
        omega
      · rw [if_neg h1]
        have h2 : 0 + 1 < fullPath.length := by omega
        have hd := pathCost_drop fullPath 0 h2
        rw [List.drop_zero] at hd
        have hge := one_le_effWeight (fullPath.getD 0 "") (fullPath.getD (0 + 1) "")
        omega
    exact tick_single_progress (max (pathCost fullPath) 1) _ _
      hroutes hwf hrob hord hnopend hmeasure

def c7order : Order := ⟨"OW", "A", "B", .NEW⟩

def c7s0 : SysState :=
  { orders := [c7order], robots := [⟨"R1", .IDLE, "A"⟩], routes := [], events := [] }

def c7route : Route := ⟨"R1", 0, "OW", ["A", "B"], 0⟩

def c7s1 : SysState :=
  { orders := [⟨"OW", "A", "B", .IN_PROGRESS⟩],
    robots := [⟨"R1", .EXECUTING, "A"⟩],
    routes := [c7route], events := [] }

/-- Witness for C7_completion_bound_amended at a concrete assignment: order OW
from A to B, sole idle robot R1 at A; the bound max(1, 1) = 1 tick completes
the route. -/
theorem C7_completion_bound_amended_witness :
    ∃ s2, tickN (max (pathCost c7route.path) 1) c7s1 = some s2 ∧ s2.routes = [] ∧
      (∀ rob ∈ s2.robots, rob.name = c7route.robot → rob.status = RobotStatus.IDLE) ∧
      (∀ o2 ∈ s2.orders, o2.name = c7route.order → o2.status = OrderStatus.DONE) :=
  C7_completion_bound_amended c7order c7s0 c7s1 c7route (by decide) (by decide)
    ⟨⟨"OW", "A", "B", .IN_PROGRESS⟩, by decide, by decide⟩ (by decide)

/-- C8: in every reachable state every stored route has remaining_weight ≥ 0;
the tick reset step loads the new current edge's weight (at least 1, with the
defensive default of 1 when no graph edge matches, via effWeight) exactly when
the route begins traversing that edge — remaining_weight 0 with the cursor not
yet at the last index — and leaves the route untouched while an edge is still
being traversed; and the cursor only ever advances with the current edge
exhausted (remaining_weight exactly 0), so each advance is followed by the
reset loading the new edge on the next tick. -/
theorem C8_remaining_weight_invariant :
    (∀ s, Reachable s → ∀ r ∈ s.routes, 0 ≤ r.remaining_weight) ∧
    (∀ r : Route, r.remaining_weight = 0 → r.next_index + 1 < r.path.length →
      (resetRoute r).remaining_weight = startEdgeWeight r ∧ 1 ≤ startEdgeWeight r) ∧
    (∀ r : Route, 0 < r.remaining_weight → resetRoute r = r) ∧
    (∀ (rob : Robot) (r : Route) (s : SysState), 0 ≤ r.remaining_weight →
      (advanceStep rob r s).2.1.next_index = r.next_index + 1 →
      r.remaining_weight = 0) := by
  refine ⟨?_, ?_, ?_, ?_⟩
  · intro s hs r hr
    exact ((reachable_wf s hs).1 r hr).2.1
  · intro r h0 hlt
    constructor
    · rw [resetRoute_load r ⟨h0, hlt⟩]
    · show (1 : Int) ≤
        ((effWeight (r.path.getD r.next_index "") (r.path.getD (r.next_index + 1) "")) : Int)
      exact_mod_cast one_le_effWeight _ _
  · intro r hpos
    exact resetRoute_skip r (fun hcon => absurd hcon.1 (by omega))
  · intro rob r s hge hadv
    by_cases hc : r.remaining_weight ≤ 0 ∧ r.next_index + 1 < r.path.length
    · omega
    · rw [advanceStep_stay rob r s hc] at hadv
      have hadv2 : r.next_index = r.next_index + 1 := hadv
      omega

def c8route : Route := ⟨"R1", 0, "O-1001", ["A", "B", "C", "D"], 0⟩

def c8resetRoute : Route := ⟨"R1", 1, "O-1001", ["A", "B", "C", "D"], 0⟩

/-- Witness for C8_remaining_weight_invariant: the route stored in the
reachable state reach1 has non-negative remaining_weight, and the reset step
on a route about to begin the weight-2 edge B-C loads that weight. -/
theorem C8_remaining_weight_invariant_witness :
    (0 : Int) ≤ c8route.remaining_weight ∧
    (resetRoute c8resetRoute).remaining_weight = startEdgeWeight c8resetRoute ∧
    1 ≤ startEdgeWeight c8resetRoute ∧ startEdgeWeight c8resetRoute = 2 :=
  ⟨C8_remaining_weight_invariant.1 reach1 reachable_reach1 c8route (by decide),
   (C8_remaining_weight_invariant.2.1 c8resetRoute (by decide) (by decide)).1,
   (C8_remaining_weight_invariant.2.1 c8resetRoute (by decide) (by decide)).2,
   by decide⟩

/-- C10: in every reachable state, every stored route, after the tick's reset
step (the form in which the move step sees it), has the robot_moving read of
path[next_index + 1] in bounds whenever remaining_weight is positive — the
get? returns a value, never Python's IndexError — and the tick call itself
always succeeds. -/
theorem C10_moving_read_in_bounds (s : SysState) (h : Reachable s) :
    (∀ r ∈ s.routes, 0 < (resetRoute r).remaining_weight →
      (resetRoute r).next_index + 1 < (resetRoute r).path.length ∧
      ((resetRoute r).path.get? ((resetRoute r).next_index + 1)).isSome = true) ∧
    tick s ≠ none := by
  have hwf := reachable_wf s h
  constructor
  · intro r hr hpos
    have hwfr := hwf.1 r hr
    by_cases hc : r.remaining_weight = 0 ∧ r.next_index + 1 < r.path.length
    · rw [resetRoute_load r hc]
      refine ⟨hc.2, ?_⟩
      show (r.path.get? (r.next_index + 1)).isSome = true
      rw [get?_of_lt r.path (r.next_index + 1) hc.2]
      rfl
    · rw [resetRoute_skip r hc] at hpos ⊢
      have hb := hwfr.2.2 hpos
      refine ⟨hb, ?_⟩
      rw [get?_of_lt r.path (r.next_index + 1) hb]
      rfl
  · obtain ⟨s2, h2, -⟩ := tick_wf s hwf
    rw [h2]
    exact fun hcon => Option.noConfusion hcon

def c10route : Route := ⟨"R1", 1, "O-1001", ["A", "B", "C", "D"], 1⟩

/-- Witness for C10_moving_read_in_bounds at the reachable state reach3, whose
route sits mid-way along the B-C edge with remaining_weight 1. -/
theorem C10_moving_read_in_bounds_witness :
    ((resetRoute c10route).path.get? ((resetRoute c10route).next_index + 1)).isSome = true ∧
    tick reach3 ≠ none :=
  ⟨((C10_moving_read_in_bounds reach3 reachable_reach3).1 c10route
      (by decide) (by decide)).2,
   (C10_moving_read_in_bounds reach3 reachable_reach3).2⟩

end AGV
